import Mathlib

/-!
# go-sync: context-aware `Mutex` and `Cond`

A shallow embedding of `mutex.go` and `cond.go`.

* A Go channel of `struct{}` values is a pair capacity / number of buffered
  tokens; the only operations the package uses are `make`, a send and a
  receive, each either blocking or inside a `select`.
* A `context.Context` is the value `ctx.Err()` currently returns; `ctx.Done()`
  is readable exactly when that value is not nil.
* Blocking code is embedded as a step machine: every agent (goroutine) has a
  program counter naming the channel operation it is about to perform, a
  schedule is a list of `(agent, action)` pairs, and a step whose channel
  operation cannot proceed leaves the state as it is (the agent stays
  suspended).
-/

namespace GoSync

/-! ## Contexts and channels -/

/-- The non-nil values of `ctx.Err()`. -/
inductive Cause where
  | canceled
  | deadlineExceeded
  deriving DecidableEq, Repr

/-- A `context.Context`: `err` is what `ctx.Err()` returns now (`none` is nil);
`cancelable` is false for `context.Background()` and `context.TODO()`, which can
never be triggered. -/
structure Context where
  err : Option Cause
  cancelable : Bool
  deriving DecidableEq, Repr

/-- The context `context.Background()`. -/
def Context.background : Context := ⟨none, false⟩

/-- The context `context.TODO()`. -/
def Context.todo : Context := ⟨none, false⟩

/-- A context made by `context.WithCancel`, not yet cancelled. -/
def Context.withCancel : Context := ⟨none, true⟩

/-- The call `ctx.Err()`. -/
def Context.Err (ctx : Context) : Option Cause := ctx.err

/-- Triggering of a token by its environment (`cancel()`, a deadline): only a
cancelable, not yet triggered token changes, and it keeps its first cause. -/
def Context.trigger (ctx : Context) (e : Cause) : Context :=
  if ctx.cancelable && ctx.err.isNone then ⟨some e, ctx.cancelable⟩ else ctx

/-- A `chan struct{}`: its capacity and the number of tokens buffered in it. -/
structure Chan where
  cap : Nat
  len : Nat
  deriving DecidableEq, Repr

/-- The expression `make(chan struct{}, n)`. -/
def Chan.make (n : Nat) : Chan := ⟨n, 0⟩

/-- A send `ch <- struct{}{}` on a buffered channel: `none` when the buffer is
full (a blocking send suspends, a `select` moves on to another case). -/
def Chan.trySend (ch : Chan) : Option Chan :=
  if ch.len < ch.cap then some ⟨ch.cap, ch.len + 1⟩ else none

/-- A receive `<-ch` on a buffered channel: `none` when the buffer is empty. -/
def Chan.tryRecv (ch : Chan) : Option Chan :=
  if 0 < ch.len then some ⟨ch.cap, ch.len - 1⟩ else none

/-! ## Mutex (`mutex.go`) -/

/-- The struct `Mutex`: `c` is `none` while the channel field is nil, `once`
tells whether `m.once` has already run. -/
structure Mutex where
  c : Option Chan
  once : Bool
  deriving DecidableEq, Repr

/-- The zero value `var m Mutex`. -/
def Mutex.zero : Mutex := ⟨none, false⟩

/-- The method `init`: `m.c = make(chan struct{}, 1)`. -/
def Mutex.init (m : Mutex) : Mutex := ⟨some (Chan.make 1), m.once⟩

/-- The statement `m.once.Do(m.init)`. -/
def Mutex.onceDo (m : Mutex) : Mutex :=
  if m.once then m else ⟨(m.init).c, true⟩

/-- The send `m.c <- struct{}{}`; `none` when it cannot proceed (a send on a nil
channel never proceeds). -/
def Mutex.send (m : Mutex) : Option Mutex :=
  match m.c with
  | none => none
  | some ch =>
    match ch.trySend with
    | none => none
    | some ch1 => some ⟨some ch1, m.once⟩

/-- The receive `<-m.c`; `none` when it cannot proceed. -/
def Mutex.recv (m : Mutex) : Option Mutex :=
  match m.c with
  | none => none
  | some ch =>
    match ch.tryRecv with
    | none => none
    | some ch1 => some ⟨some ch1, m.once⟩

/-- Number of tokens in the slot. -/
def Mutex.tokens (m : Mutex) : Nat :=
  match m.c with
  | none => 0
  | some ch => ch.len

/-- The mutex is `Held` when its slot contains a token, `Free` otherwise. -/
def Mutex.held (m : Mutex) : Bool := decide (0 < m.tokens)

/-- Text of the panic in `Unlock`. -/
def unlockPanic : String :=
  "mutex wasn't locked - have you made sure you actually took the lock if using m.LockWithContext(...)?"

/-- The method `Unlock`, which never suspends: `once.Do`, then a `select` that
receives from the slot or, by its `default` case, panics. -/
def Mutex.Unlock (m : Mutex) : Except String Mutex :=
  match (m.onceDo).recv with
  | some m1 => Except.ok m1
  | none => Except.error unlockPanic

/-- The values a `Mutex` takes in a program: the zero value, or an initialised
mutex whose capacity-1 slot is empty or full. -/
def Mutex.wf (m : Mutex) : Prop :=
  m = Mutex.zero ∨ m = ⟨some ⟨1, 0⟩, true⟩ ∨ m = ⟨some ⟨1, 1⟩, true⟩

instance (m : Mutex) : Decidable m.wf := by unfold Mutex.wf; infer_instance

/-! ### Agents using one mutex -/

/-- Where an agent is in its program. -/
inductive PC where
  /-- Outside every call, not holding the mutex. -/
  | idle
  /-- In `Lock`, after `once.Do`, at `m.c <- struct{}{}`. -/
  | lockSend
  /-- In `LockWithContext`, after `once.Do`, at `if err := ctx.Err()`. -/
  | lwcCheck
  /-- In `LockWithContext`, at the first `select` (send or `default`). -/
  | lwcTry
  /-- In `LockWithContext`, at the second `select` (send or `<-ctx.Done()`). -/
  | lwcRace
  /-- The acquire returned nil and `Unlock` was not called yet. -/
  | critical
  /-- In `counter++` of the critical section: the value was read, not yet
  written back. -/
  | incRead (v : Nat)
  /-- In `Unlock`, after `once.Do`, at the `select`; `owner` tells whether the
  call was made from the critical section. -/
  | unlockRecv (owner : Bool)
  /-- The agent panicked in `Unlock`. -/
  | panicked
  deriving DecidableEq, Repr

/-- One agent: its program counter, the token of its current
`LockWithContext`, the value its current or last acquire call returned if that
call was a `LockWithContext` and has returned (`some none` is nil), the number
of tokens its current or last acquire call put in the slot, and the number of
`counter++` it completed. -/
structure Agent where
  pc : PC
  ctx : Context
  ret : Option (Option Cause)
  sends : Nat
  incs : Nat
  deriving DecidableEq, Repr

/-- An agent that has not run yet. -/
def Agent.fresh : Agent := ⟨PC.idle, Context.background, none, 0, 0⟩

/-- The agent is between a successful acquire and the matching release. -/
def Agent.owns (a : Agent) : Bool :=
  match a.pc with
  | PC.critical => true
  | PC.incRead _ => true
  | PC.unlockRecv true => true
  | _ => false

/-- What a schedule can make an agent do. -/
inductive Action where
  /-- Enter `Lock()` (from outside every call, not holding the mutex). -/
  | callLock
  /-- Enter `LockWithContext(ctx)` (same). -/
  | callLockWithContext (ctx : Context)
  /-- Enter `Unlock()` (from the critical section or, a misuse, from idle). -/
  | callUnlock
  /-- The environment triggers the agent's token. -/
  | trigger (e : Cause)
  /-- Perform the operation at the program counter; in the second `select` of
  `LockWithContext` this is the send. -/
  | step
  /-- In the second `select` of `LockWithContext`, take `<-ctx.Done()`. -/
  | done
  deriving DecidableEq, Repr

/-- One action of an agent on the mutex `m` and the shared `counter`. The
methods `Lock`, `LockWithContext` and `Unlock` are cut at their channel
operations: entering a method runs `m.once.Do(m.init)`, and every later step
is the one statement named by the program counter. -/
def act (m : Mutex) (counter : Nat) (a : Agent) : Action → Mutex × Nat × Agent
  | Action.callLock =>
    match a.pc with
    -- Lock: `m.once.Do(m.init)`
    | PC.idle => (m.onceDo, counter, ⟨PC.lockSend, a.ctx, none, 0, a.incs⟩)
    | _ => (m, counter, a)
  | Action.callLockWithContext ctx =>
    match a.pc with
    -- LockWithContext: `m.once.Do(m.init)`
    | PC.idle => (m.onceDo, counter, ⟨PC.lwcCheck, ctx, none, 0, a.incs⟩)
    | _ => (m, counter, a)
  | Action.callUnlock =>
    match a.pc with
    -- Unlock: `m.once.Do(m.init)`
    | PC.idle => (m.onceDo, counter, ⟨PC.unlockRecv false, a.ctx, a.ret, a.sends, a.incs⟩)
    | PC.critical => (m.onceDo, counter, ⟨PC.unlockRecv true, a.ctx, a.ret, a.sends, a.incs⟩)
    | _ => (m, counter, a)
  | Action.trigger e => (m, counter, ⟨a.pc, a.ctx.trigger e, a.ret, a.sends, a.incs⟩)
  | Action.step =>
    match a.pc with
    -- Lock: `m.c <- struct{}{}`, suspended while the slot is full
    | PC.lockSend =>
      match m.send with
      | some m1 => (m1, counter, ⟨PC.critical, a.ctx, a.ret, a.sends + 1, a.incs⟩)
      | none => (m, counter, a)
    -- LockWithContext: `if err := ctx.Err(); err != nil { return err }`
    | PC.lwcCheck =>
      match a.ctx.Err with
      | some e => (m, counter, ⟨PC.idle, a.ctx, some (some e), a.sends, a.incs⟩)
      | none => (m, counter, ⟨PC.lwcTry, a.ctx, a.ret, a.sends, a.incs⟩)
    -- LockWithContext: `select { case m.c <- struct{}{}: return nil; default: }`
    | PC.lwcTry =>
      match m.send with
      | some m1 => (m1, counter, ⟨PC.critical, a.ctx, some none, a.sends + 1, a.incs⟩)
      | none => (m, counter, ⟨PC.lwcRace, a.ctx, a.ret, a.sends, a.incs⟩)
    -- LockWithContext: `case m.c <- struct{}{}:` of the second select, then `return nil`
    | PC.lwcRace =>
      match m.send with
      | some m1 => (m1, counter, ⟨PC.critical, a.ctx, some none, a.sends + 1, a.incs⟩)
      | none => (m, counter, a)
    -- critical section: `counter++`, a read and then a write
    | PC.critical => (m, counter, ⟨PC.incRead counter, a.ctx, a.ret, a.sends, a.incs⟩)
    | PC.incRead v => (m, v + 1, ⟨PC.critical, a.ctx, a.ret, a.sends, a.incs + 1⟩)
    -- Unlock: `select { case <-m.c: default: panic(...) }`
    | PC.unlockRecv _ =>
      match m.recv with
      | some m1 => (m1, counter, ⟨PC.idle, a.ctx, a.ret, a.sends, a.incs⟩)
      | none => (m, counter, ⟨PC.panicked, a.ctx, a.ret, a.sends, a.incs⟩)
    | _ => (m, counter, a)
  | Action.done =>
    match a.pc with
    -- LockWithContext: `case <-ctx.Done(): return ctx.Err()` of the second select
    | PC.lwcRace =>
      match a.ctx.Err with
      | some e => (m, counter, ⟨PC.idle, a.ctx, some (some e), a.sends, a.incs⟩)
      | none => (m, counter, a)
    | _ => (m, counter, a)

/-- A mutex, the counter it protects, and the agents sharing them. -/
structure State where
  m : Mutex
  counter : Nat
  agents : List Agent
  deriving DecidableEq, Repr

/-- The start: a zero-value mutex, `counter = 0` and `n` agents. -/
def State.start (n : Nat) : State := ⟨Mutex.zero, 0, List.replicate n Agent.fresh⟩

/-- Agent `i` performs action `x`. -/
def State.step (s : State) (i : Nat) (x : Action) : State :=
  match s.agents[i]? with
  | none => s
  | some a =>
    match act s.m s.counter a x with
    | (m1, n1, a1) => ⟨m1, n1, s.agents.set i a1⟩

/-- Run a schedule. -/
def State.run (s : State) : List (Nat × Action) → State
  | [] => s
  | (i, x) :: rest => (s.step i x).run rest

/-- Every `Unlock` of the schedule is called by an agent from its critical
section, that is after its own successful acquire. -/
def State.disciplined (s : State) : List (Nat × Action) → Bool
  | [] => true
  | (i, x) :: rest =>
    (match x, s.agents[i]? with
     | Action.callUnlock, some a => decide (a.pc = PC.critical)
     | _, _ => true) && (s.step i x).disciplined rest

/-- Indicator of `Agent.owns`. -/
def Agent.ownsN (a : Agent) : Nat := if a.owns then 1 else 0

/-- Invariant of the disciplined runs: the mutex is well formed, the number of
owners is the number of tokens in the slot, the counter is the number of
completed increments, nobody panicked or called `Unlock` from outside its
critical section, and a value read by `counter++` is still the counter. -/
structure MutexInv (s : State) : Prop where
  wf : s.m.wf
  own : (s.agents.map Agent.ownsN).sum = s.m.tokens
  cnt : (s.agents.map Agent.incs).sum = s.counter
  ok : ∀ (i : Nat) (a : Agent), s.agents[i]? = some a →
    a.pc ≠ PC.panicked ∧ a.pc ≠ PC.unlockRecv false ∧ ∀ v, a.pc = PC.incRead v → v = s.counter

/-- Schedule of one uncontended cycle of agent `i`: `Lock()`, `counter++`,
`Unlock()`. -/
def lockIncUnlock (i : Nat) : List (Nat × Action) :=
  [(i, Action.callLock), (i, Action.step), (i, Action.step), (i, Action.step),
   (i, Action.callUnlock), (i, Action.step)]

/-- A schedule of three agents, two cycles each: all three call `Lock` before
anyone proceeds, agents try their send while another one holds the mutex, and
agent 1 calls `Lock` again while it is contended. -/
def contended : List (Nat × Action) :=
  [(0, Action.callLock), (1, Action.callLock), (2, Action.callLock),
   (1, Action.step), (0, Action.step), (2, Action.step),
   (1, Action.step), (0, Action.step), (1, Action.step),
   (1, Action.callUnlock), (2, Action.step), (1, Action.step),
   (1, Action.callLock), (2, Action.step), (1, Action.step),
   (2, Action.step), (2, Action.step), (0, Action.step),
   (2, Action.callUnlock), (2, Action.step),
   (0, Action.step), (0, Action.step), (0, Action.step), (0, Action.callUnlock), (0, Action.step),
   (1, Action.step), (1, Action.step), (1, Action.step), (1, Action.callUnlock), (1, Action.step)]
  ++ lockIncUnlock 0 ++ lockIncUnlock 2

/-- An agent running alone: its actions in sequence on the mutex and counter. -/
def acts (m : Mutex) (counter : Nat) (a : Agent) : List Action → Mutex × Nat × Agent
  | [] => (m, counter, a)
  | x :: rest =>
    match act m counter a x with
    | (m1, n1, a1) => acts m1 n1 a1 rest

/-- The program counter is inside `LockWithContext`. -/
def PC.inLockWithContext : PC → Bool
  | PC.lwcCheck => true
  | PC.lwcTry => true
  | PC.lwcRace => true
  | _ => false

/-- A context made by `context.WithCancel` whose `cancel()` has been called. -/
def Context.canceled : Context := ⟨some Cause.canceled, true⟩

/-- Two agents, the first of which holds the mutex. -/
def heldByFirst : State := (State.start 2).run [(0, Action.callLock), (0, Action.step)]

/-- While an agent is inside `LockWithContext` its call has returned nothing and
has placed no token in the slot. -/
def Agent.callClean (a : Agent) : Prop :=
  a.pc.inLockWithContext = true → a.ret = none ∧ a.sends = 0

/-- A schedule in which agent 1 finds the mutex held by agent 0, waits in the
second `select`, has its token triggered, and still wins the send once agent 0
has released. -/
def lateTrigger : List (Nat × Action) :=
  [(0, Action.callLock), (0, Action.step),
   (1, Action.callLockWithContext Context.withCancel), (1, Action.step), (1, Action.step),
   (1, Action.trigger Cause.canceled), (0, Action.callUnlock), (0, Action.step)]

/-- One acquire/release cycle of an agent running alone, without critical
section: `Lock()` for `none`, `LockWithContext(ctx)` for `some ctx`, then
`Unlock()`. -/
def cycle : Option Context → List Action
  | none => [Action.callLock, Action.step, Action.callUnlock, Action.step]
  | some ctx =>
    [Action.callLockWithContext ctx, Action.step, Action.step, Action.callUnlock, Action.step]

/-- Consecutive cycles. -/
def cycles : List (Option Context) → List Action
  | [] => []
  | o :: rest => cycle o ++ cycles rest

/-- The calls of scenario 3 made by the second agent: `LockWithContext` with a
triggered token, then `Unlock`. -/
def cancelledThenUnlock (ctx : Context) : List Action :=
  [Action.callLockWithContext ctx, Action.step, Action.callUnlock, Action.step]

/-- Schedule of `M` consecutive cycles of agent `i`. -/
def rounds (i : Nat) : Nat → List (Nat × Action)
  | 0 => []
  | M + 1 => lockIncUnlock i ++ rounds i M

/-- Schedule in which each of the agents `0 .. n - 1` runs `M` cycles. -/
def allRounds : Nat → Nat → List (Nat × Action)
  | 0, _ => []
  | n + 1, M => allRounds n M ++ rounds n M

/-! ## Cond (`cond.go`) -/

/-- The channels made so far; a channel value of the program (a reference) is
an index into this list, so that the waiter table and the waiter share one
channel. -/
abbrev Heap := List Chan

/-- The channel at reference `r` accepts a send. -/
def Heap.ready (h : Heap) (r : Nat) : Bool :=
  match h[r]? with
  | none => false
  | some ch => decide (ch.len < ch.cap)

/-- The `select` with the case `ch <- struct{}{}` and a `default`: the heap
after the send, `none` when the `default` case is taken. -/
def Heap.trySend (h : Heap) (r : Nat) : Option Heap :=
  match h[r]? with
  | none => none
  | some ch =>
    match ch.trySend with
    | none => none
    | some ch1 => some (h.set r ch1)

/-- A receive `<-ch` on the channel at reference `r`; `none` when it cannot
proceed. -/
def Heap.tryRecv (h : Heap) (r : Nat) : Option Heap :=
  match h[r]? with
  | none => none
  | some ch =>
    match ch.tryRecv with
    | none => none
    | some ch1 => some (h.set r ch1)

/-- The map `channelWaits map[uint64]chan struct{}`, as the list of its
entries (waiter id, channel reference). -/
abbrev Waits := List (Nat × Nat)

/-- The keys of the map. -/
def Waits.keys (t : Waits) : List Nat := t.map Prod.fst

/-- The channels of the map. -/
def Waits.refs (t : Waits) : List Nat := t.map Prod.snd

/-- The index expression `c.channelWaits[k]` with its `exist` flag. -/
def Waits.lookup : Waits → Nat → Option Nat
  | [], _ => none
  | (k1, r) :: t, k => if k1 = k then some r else Waits.lookup t k

/-- The statement `delete(c.channelWaits, k)`. -/
def Waits.delete (t : Waits) (k : Nat) : Waits := t.filter (fun e => decide (e.1 ≠ k))

/-- The assignment `c.channelWaits[k] = ch`. -/
def Waits.insert (t : Waits) (k r : Nat) : Waits := (k, r) :: Waits.delete t k

/-- The loop `for _, k := range todelete { delete(c.channelWaits, k) }`. -/
def Waits.deleteAll : Waits → List Nat → Waits
  | t, [] => t
  | t, k :: ks => Waits.deleteAll (Waits.delete t k) ks

/-- The struct `Cond` without its locker `L`, which is part of the state of the
machine below. `nextID` is a `uint64`. -/
structure Cond where
  nextID : Nat
  channelWaits : Waits
  deriving DecidableEq, Repr

/-- The constructor `NewCond`. -/
def NewCond : Cond := ⟨0, []⟩

/-- The method `Signal`. The `range` over the map visits the keys in `order`,
which Go leaves unspecified; the first entry whose channel accepts the
non-blocking send gets the token and is deleted, and the method returns. -/
def Cond.Signal (h : Heap) (c : Cond) : List Nat → Heap × Cond
  | [] => (h, c)
  | k :: rest =>
    match Waits.lookup c.channelWaits k with
    | none => Cond.Signal h c rest
    | some r =>
      match h.trySend r with
      | some h1 => (h1, ⟨c.nextID, Waits.delete c.channelWaits k⟩)
      | none => Cond.Signal h c rest

/-- The first loop of `Broadcast`: a non-blocking send to every entry, in the
order of the `range`; the keys of the successful sends are appended to
`todelete`. -/
def Cond.broadcastSends (c : Cond) : Heap → List Nat → List Nat → Heap × List Nat
  | h, todelete, [] => (h, todelete)
  | h, todelete, k :: rest =>
    match Waits.lookup c.channelWaits k with
    | none => Cond.broadcastSends c h todelete rest
    | some r =>
      match h.trySend r with
      | some h1 => Cond.broadcastSends c h1 (todelete ++ [k]) rest
      | none => Cond.broadcastSends c h todelete rest

/-- The method `Broadcast`: the sends, then the deletion of `todelete`. -/
def Cond.Broadcast (h : Heap) (c : Cond) (order : List Nat) : Heap × Cond :=
  match Cond.broadcastSends c h [] order with
  | (h1, todelete) => (h1, ⟨c.nextID, Waits.deleteAll c.channelWaits todelete⟩)

/-- The enrolment loop of `WaitWithContext`: `c.nextID++` (a `uint64`, which
wraps) until the id is absent from the map. The loop has no bound in the
source; `fuel` bounds the number of iterations and `none` means that it ran
out. -/
def Cond.probe (t : Waits) : Nat → Nat → Option Nat
  | 0, _ => none
  | fuel + 1, nextID =>
    if (Waits.lookup t ((nextID + 1) % 2 ^ 64)).isNone then some ((nextID + 1) % 2 ^ 64)
    else Cond.probe t fuel ((nextID + 1) % 2 ^ 64)

/-- Enrolment in `WaitWithContext`: the probe loop (after `2 ^ 64` iterations
every id has been tried, so running out of fuel is the loop not terminating),
`ch := make(chan struct{}, 1)` and `c.channelWaits[id] = ch`. Returns the heap,
the `Cond` and the new channel. -/
def Cond.enrol (h : Heap) (c : Cond) : Option (Heap × Cond × Nat) :=
  match Cond.probe c.channelWaits (2 ^ 64) c.nextID with
  | none => none
  | some id => some (h ++ [Chan.make 1], ⟨id, Waits.insert c.channelWaits id h.length⟩, h.length)

/-- A call made on the locker `c.L`. -/
inductive LCall where
  | unlock
  | lock
  deriving DecidableEq, Repr

/-- Where an agent using the `Cond` is. -/
inductive WaitPC where
  /-- Outside every call of the package. -/
  | out
  /-- In the enrolment loop of `WaitWithContext`, which found every id taken
  and never ends. -/
  | probing
  /-- In `WaitWithContext`, enrolled with channel `ch`, after `c.L.Unlock()`, at
  the first `select` (receive or `default`). -/
  | waitTry (ch : Nat)
  /-- At the second `select` (receive or `<-ctx.Done()`). -/
  | waitRace (ch : Nat)
  /-- The return value is decided and the deferred `c.L.Lock()` is running. -/
  | waitRelock (ch : Nat) (ret : Option Cause)
  deriving DecidableEq, Repr

/-- An agent using the `Cond`: its program counter, the token of its current
`WaitWithContext`, the value its last `WaitWithContext` returned (`some none` is
nil, `none` when that call is still running), and the calls its current or last
`WaitWithContext` made on `c.L`. -/
structure Waiter where
  pc : WaitPC
  ctx : Context
  ret : Option (Option Cause)
  lcalls : List LCall
  deriving DecidableEq, Repr

/-- An agent that has not run yet. -/
def Waiter.fresh : Waiter := ⟨WaitPC.out, Context.background, none, []⟩

/-- The agent is suspended inside `Wait`/`WaitWithContext`: enrolled and not
yet past its `select` statements. -/
def Waiter.suspended (w : Waiter) : Bool :=
  match w.pc with
  | WaitPC.waitTry _ => true
  | WaitPC.waitRace _ => true
  | _ => false

/-- What a schedule can make an agent using the `Cond` do. -/
inductive CondAction where
  /-- The call `c.L.Lock()` in the code of the agent. -/
  | lock
  /-- The call `c.L.Unlock()` in the code of the agent. -/
  | unlock
  /-- The call `c.WaitWithContext(ctx)` up to and including `c.L.Unlock()`. -/
  | waitWithContext (ctx : Context)
  /-- The call `c.Signal()`, with the order of its `range`. -/
  | signal (order : List Nat)
  /-- The call `c.Broadcast()`, with the order of its `range`. -/
  | broadcast (order : List Nat)
  /-- The environment triggers the token of the agent. -/
  | trigger (e : Cause)
  /-- Perform the operation at the program counter; in the second `select`
  this is the receive. -/
  | step
  /-- In the second `select`, take `<-ctx.Done()`. -/
  | done
  deriving DecidableEq, Repr

/-- A `Cond`, its channels, the holder of its locker `L` and the agents. -/
structure CondState where
  heap : Heap
  cond : Cond
  holder : Option Nat
  agents : List Waiter
  deriving DecidableEq, Repr

/-- The state after `NewCond(l)` with `n` agents, `l` unlocked. -/
def CondState.start (n : Nat) : CondState := ⟨[], NewCond, none, List.replicate n Waiter.fresh⟩

/-- The body of `WaitWithContext` from its entry to `c.L.Unlock()`, run while
the caller holds `L`: the entry check, which returns `ctx.Err()` at once, the
enrolment, and the release of `L`. -/
def CondState.enter (s : CondState) (i : Nat) (ctx : Context) : CondState :=
  match ctx.Err with
  | some e => ⟨s.heap, s.cond, s.holder, s.agents.set i ⟨WaitPC.out, ctx, some (some e), []⟩⟩
  | none =>
    match Cond.enrol s.heap s.cond with
    | none => ⟨s.heap, s.cond, s.holder, s.agents.set i ⟨WaitPC.probing, ctx, none, []⟩⟩
    | some (h1, c1, ch) =>
      ⟨h1, c1, none, s.agents.set i ⟨WaitPC.waitTry ch, ctx, none, [LCall.unlock]⟩⟩

/-- Agent `i`, whose state is `w`, performs action `x`. The methods of `Cond`
and the entry of `WaitWithContext` run only while the agent holds `L` (the
contract of the package) and are atomic for that reason; an action that cannot
proceed leaves the state as it is. -/
def CondState.act (s : CondState) (i : Nat) (w : Waiter) : CondAction → CondState
  | CondAction.lock =>
    match w.pc, s.holder with
    | WaitPC.out, none => ⟨s.heap, s.cond, some i, s.agents⟩
    | _, _ => s
  | CondAction.unlock =>
    if w.pc = WaitPC.out ∧ s.holder = some i then ⟨s.heap, s.cond, none, s.agents⟩ else s
  | CondAction.waitWithContext ctx =>
    if w.pc = WaitPC.out ∧ s.holder = some i then s.enter i ctx else s
  | CondAction.signal order =>
    if w.pc = WaitPC.out ∧ s.holder = some i ∧ order.Perm (Waits.keys s.cond.channelWaits) then
      match Cond.Signal s.heap s.cond order with
      | (h1, c1) => ⟨h1, c1, s.holder, s.agents⟩
    else s
  | CondAction.broadcast order =>
    if w.pc = WaitPC.out ∧ s.holder = some i ∧ order.Perm (Waits.keys s.cond.channelWaits) then
      match Cond.Broadcast s.heap s.cond order with
      | (h1, c1) => ⟨h1, c1, s.holder, s.agents⟩
    else s
  | CondAction.trigger e =>
    ⟨s.heap, s.cond, s.holder, s.agents.set i ⟨w.pc, w.ctx.trigger e, w.ret, w.lcalls⟩⟩
  | CondAction.step =>
    match w.pc with
    | WaitPC.out => s
    | WaitPC.probing => s
    -- WaitWithContext: `select { case <-ch: return nil; default: }`
    | WaitPC.waitTry ch =>
      match s.heap.tryRecv ch with
      | some h1 =>
        ⟨h1, s.cond, s.holder, s.agents.set i ⟨WaitPC.waitRelock ch none, w.ctx, w.ret, w.lcalls⟩⟩
      | none =>
        ⟨s.heap, s.cond, s.holder, s.agents.set i ⟨WaitPC.waitRace ch, w.ctx, w.ret, w.lcalls⟩⟩
    -- WaitWithContext: `case <-ch:` of the second select, then `return nil`
    | WaitPC.waitRace ch =>
      match s.heap.tryRecv ch with
      | some h1 =>
        ⟨h1, s.cond, s.holder, s.agents.set i ⟨WaitPC.waitRelock ch none, w.ctx, w.ret, w.lcalls⟩⟩
      | none => s
    -- WaitWithContext: the deferred `c.L.Lock()`, suspended while `L` is held
    | WaitPC.waitRelock _ ret =>
      match s.holder with
      | none =>
        ⟨s.heap, s.cond, some i,
          s.agents.set i ⟨WaitPC.out, w.ctx, some ret, w.lcalls ++ [LCall.lock]⟩⟩
      | some _ => s
  | CondAction.done =>
    match w.pc with
    -- WaitWithContext: `case <-ctx.Done(): return ctx.Err()` of the second select
    | WaitPC.waitRace ch =>
      match w.ctx.Err with
      | some e =>
        ⟨s.heap, s.cond, s.holder,
          s.agents.set i ⟨WaitPC.waitRelock ch (some e), w.ctx, w.ret, w.lcalls⟩⟩
      | none => s
    | _ => s

/-- Agent `i` performs action `x`. -/
def CondState.step (s : CondState) (i : Nat) (x : CondAction) : CondState :=
  match s.agents[i]? with
  | none => s
  | some w => s.act i w x

/-- Run a schedule. -/
def CondState.run (s : CondState) : List (Nat × CondAction) → CondState
  | [] => s
  | (i, x) :: rest => (s.step i x).run rest

/-- The call `c.Wait()`: `c.WaitWithContext(context.TODO())`. -/
def CondAction.wait : CondAction := CondAction.waitWithContext Context.todo

/-- A schedule of two agents: agent 0 waits with a token that is then
cancelled, returns `Canceled` and releases `L`; agent 1 calls `Wait()` and is
suspended in the second `select`; agent 0 takes `L` again. -/
def staleEntry : List (Nat × CondAction) :=
  [(0, CondAction.lock), (0, CondAction.waitWithContext Context.withCancel), (0, CondAction.step),
   (0, CondAction.trigger Cause.canceled), (0, CondAction.done), (0, CondAction.step),
   (0, CondAction.unlock),
   (1, CondAction.lock), (1, CondAction.wait), (1, CondAction.step),
   (0, CondAction.lock)]

/-- Consecutive calls of `Signal`, each with the order of its `range`. -/
def Cond.signals (h : Heap) (c : Cond) : List (List Nat) → Heap × Cond
  | [] => (h, c)
  | o :: os => Cond.signals (Cond.Signal h c o).1 (Cond.Signal h c o).2 os

/-- Each order of consecutive `Signal` calls enumerates the keys the map has
when its call is made. -/
def Cond.orders (h : Heap) (c : Cond) : List (List Nat) → Prop
  | [] => True
  | o :: os =>
    o.Perm (Waits.keys c.channelWaits) ∧
      Cond.orders (Cond.Signal h c o).1 (Cond.Signal h c o).2 os

/-- The calls an agent has made on `c.L` fit its program counter: none while
the enrolment loop runs, the one `Unlock` while it is enrolled, and outside the
call either none or the `Unlock` followed by the `Lock`. -/
def Waiter.callsOk (w : Waiter) : Prop :=
  match w.pc with
  | WaitPC.out => w.lcalls = [] ∨ w.lcalls = [LCall.unlock, LCall.lock]
  | WaitPC.probing => w.lcalls = []
  | _ => w.lcalls = [LCall.unlock]

/-- A schedule of two agents: agent 0 enrols with a cancellable token and
releases `L`; before its first `select` runs, agent 1 signals it and releases
`L`, and the token of agent 0 is cancelled. -/
def signalledEarly : List (Nat × CondAction) :=
  [(0, CondAction.lock), (0, CondAction.waitWithContext Context.withCancel),
   (1, CondAction.lock), (1, CondAction.signal [1]), (1, CondAction.unlock),
   (0, CondAction.trigger Cause.canceled)]

/-- Number of tokens buffered in the channel at reference `r` (none when `r` is
no channel yet). -/
def Heap.tokens (h : Heap) (r : Nat) : Nat :=
  match h[r]? with
  | none => 0
  | some ch => ch.len

/-- The action is a call of `Signal` or of `Broadcast`. -/
def CondAction.delivers : CondAction → Bool
  | CondAction.signal _ => true
  | CondAction.broadcast _ => true
  | _ => false

/-- Some step of the schedule, run from `s`, is a call of `Signal` or
`Broadcast` that puts a token in the channel at reference `r`. -/
def CondState.delivered (s : CondState) : List (Nat × CondAction) → Nat → Bool
  | [], _ => false
  | (j, x) :: rest, r =>
    (x.delivers && decide (s.heap.tokens r < (s.step j x).heap.tokens r)) ||
      (s.step j x).delivered rest r

/-- A triggered token still has its first cause where the agent has taken or is
taking the cancellation exit. -/
def Waiter.cancelOk (w : Waiter) : Prop :=
  (∀ ch e, w.pc = WaitPC.waitRelock ch (some e) → w.ctx.Err = some e) ∧
  (∀ e, w.ret = some (some e) → w.ctx.Err = some e)

/-- A schedule of one agent: it enrols with a cancellable token, finds no token
at its first `select`, the token is cancelled, the agent takes `<-ctx.Done()`
and re-acquires `L`. -/
def cancelledWait : List (Nat × CondAction) :=
  [(0, CondAction.lock), (0, CondAction.waitWithContext Context.withCancel), (0, CondAction.step),
   (0, CondAction.trigger Cause.canceled), (0, CondAction.done), (0, CondAction.step)]

/-- A schedule of three agents: agent 0 enrols with a cancellable token, agent
1 calls `Wait()` and is suspended in the second `select`; the token of agent 0
is cancelled and agent 0 takes `<-ctx.Done()`; before it re-acquires `L`, agent
2 takes `L`. -/
def lostWakeup : List (Nat × CondAction) :=
  [(0, CondAction.lock), (0, CondAction.waitWithContext Context.withCancel), (0, CondAction.step),
   (1, CondAction.lock), (1, CondAction.wait), (1, CondAction.step),
   (0, CondAction.trigger Cause.canceled), (0, CondAction.done),
   (2, CondAction.lock)]

/-- The table is a map (distinct ids) to distinct channels of the heap, each of
them empty and of capacity 1. -/
def Cond.tableOk (h : Heap) (c : Cond) : Prop :=
  (Waits.keys c.channelWaits).Nodup ∧ (Waits.refs c.channelWaits).Nodup ∧
    ∀ e ∈ c.channelWaits, h[e.2]? = some ⟨1, 0⟩

/-! ## Lemmas on lists and on the mutex machine -/

theorem sum_map_set {α : Type} (f : α → Nat) :
    ∀ (l : List α) (i : Nat) (a x : α), l[i]? = some a →
      ((l.set i x).map f).sum + f a = (l.map f).sum + f x := by
  intro l
  induction l with
  | nil => intro i a x h; simp at h
  | cons b t ih =>
    intro i a x h
    cases i with
    | zero =>
      simp at h
      subst h
      simp [List.set]
      omega
    | succ j =>
      simp at h
      have := ih j a x h
      simp only [List.set, List.map_cons, List.sum_cons]
      omega

theorem le_sum_map {α : Type} (f : α → Nat) :
    ∀ (l : List α) (i : Nat) (a : α), l[i]? = some a → f a ≤ (l.map f).sum := by
  intro l
  induction l with
  | nil => intro i a h; simp at h
  | cons b t ih =>
    intro i a h
    cases i with
    | zero => simp at h; subst h; simp
    | succ j =>
      simp at h
      have := ih j a h
      simp only [List.map_cons, List.sum_cons]
      omega

theorem two_le_sum_map {α : Type} (f : α → Nat) :
    ∀ (l : List α) (i j : Nat) (a b : α), l[i]? = some a → l[j]? = some b → i ≠ j →
      f a + f b ≤ (l.map f).sum := by
  intro l
  induction l with
  | nil => intro i j a b h; simp at h
  | cons c t ih =>
    intro i j a b hi hj hne
    cases i with
    | zero =>
      cases j with
      | zero => exact absurd rfl hne
      | succ j =>
        simp at hi hj
        subst hi
        have := le_sum_map f t j b hj
        simp
        omega
    | succ i =>
      cases j with
      | zero =>
        simp at hi hj
        subst hj
        have := le_sum_map f t i a hi
        simp
        omega
      | succ j =>
        simp at hi hj
        have := ih i j a b hi hj (by omega)
        simp
        omega

theorem wf_tokens_le (m : Mutex) (h : m.wf) : m.tokens ≤ 1 := by
  rcases h with h | h | h <;> subst h <;> decide

theorem act_local (m : Mutex) (n : Nat) (a : Agent) (x : Action)
    (hwf : m.wf) (hown : a.owns = true → m.tokens = 1)
    (hp : a.pc ≠ PC.panicked) (hu : a.pc ≠ PC.unlockRecv false)
    (hd : x = Action.callUnlock → a.pc = PC.critical)
    (hr : ∀ v, a.pc = PC.incRead v → v = n) :
    (act m n a x).1.wf ∧
    Agent.ownsN (act m n a x).2.2 + m.tokens = Agent.ownsN a + (act m n a x).1.tokens ∧
    (act m n a x).2.2.incs + n = a.incs + (act m n a x).2.1 ∧
    (act m n a x).2.2.pc ≠ PC.panicked ∧ (act m n a x).2.2.pc ≠ PC.unlockRecv false ∧
    (∀ v, (act m n a x).2.2.pc = PC.incRead v → v = (act m n a x).2.1) ∧
    ((act m n a x).2.1 ≠ n → a.owns = true) := by
  obtain ⟨pc, ⟨err, canc⟩, ret, sends, incs⟩ := a
  rcases hwf with h | h | h <;> subst h <;> cases x <;> cases pc <;> cases err <;>
    simp_all [act, Mutex.wf, Mutex.zero, Mutex.onceDo, Mutex.init, Chan.make, Mutex.send, Mutex.recv,
      Chan.trySend, Chan.tryRecv, Mutex.tokens, Agent.ownsN, Agent.owns, Context.Err] <;> omega

theorem inv_start (n : Nat) : MutexInv (State.start n) := by
  refine ⟨Or.inl rfl, ?_, ?_, ?_⟩
  · simp [State.start, Agent.fresh, Agent.ownsN, Agent.owns, Mutex.tokens, Mutex.zero]
  · simp [State.start, Agent.fresh]
  · intro i a h
    simp [State.start, List.getElem?_replicate] at h
    obtain ⟨-, rfl⟩ := h
    simp [Agent.fresh]

theorem step_eq (s : State) (i : Nat) (x : Action) (a : Agent) (hi : s.agents[i]? = some a) :
    s.step i x =
      ⟨(act s.m s.counter a x).1, (act s.m s.counter a x).2.1,
        s.agents.set i (act s.m s.counter a x).2.2⟩ := by
  simp [State.step, hi]

theorem step_eq_none (s : State) (i : Nat) (x : Action) (hi : s.agents[i]? = none) :
    s.step i x = s := by
  simp [State.step, hi]
theorem inv_step (s : State) (i : Nat) (x : Action) (h : MutexInv s)
    (hd : ∀ a, s.agents[i]? = some a → x = Action.callUnlock → a.pc = PC.critical) :
    MutexInv (s.step i x) := by
  cases hi : s.agents[i]? with
  | none => rw [step_eq_none s i x hi]; exact h
  | some a =>
    rw [step_eq s i x a hi]
    have hok := h.ok i a hi
    have hle := le_sum_map Agent.ownsN s.agents i a hi
    have htl := wf_tokens_le s.m h.wf
    have hown : a.owns = true → s.m.tokens = 1 := by
      intro ho
      have : Agent.ownsN a = 1 := by simp [Agent.ownsN, ho]
      have := h.own
      omega
    have L := act_local s.m s.counter a x h.wf hown hok.1 hok.2.1 (hd a hi) hok.2.2
    obtain ⟨l1, l2, l3, l4, l5, l6, l7⟩ := L
    have s1 := sum_map_set Agent.ownsN s.agents i a (act s.m s.counter a x).2.2 hi
    have s2 := sum_map_set Agent.incs s.agents i a (act s.m s.counter a x).2.2 hi
    have e1 := h.own
    have e2 := h.cnt
    refine ⟨l1, ?_, ?_, ?_⟩
    · show ((s.agents.set i _).map Agent.ownsN).sum = (act s.m s.counter a x).1.tokens
      omega
    · show ((s.agents.set i _).map Agent.incs).sum = (act s.m s.counter a x).2.1
      omega
    · intro j b hj
      show b.pc ≠ PC.panicked ∧ b.pc ≠ PC.unlockRecv false ∧
        ∀ v, b.pc = PC.incRead v → v = (act s.m s.counter a x).2.1
      change (s.agents.set i _)[j]? = some b at hj
      by_cases hij : i = j
      · subst hij
        rw [List.getElem?_set_eq_of_lt _ (List.getElem?_eq_some.mp hi).1] at hj
        cases hj
        exact ⟨l4, l5, l6⟩
      · rw [List.getElem?_set_ne hij] at hj
        have hb := h.ok j b hj
        refine ⟨hb.1, hb.2.1, ?_⟩
        intro v hv
        have hbv := hb.2.2 v hv
        by_cases hc : (act s.m s.counter a x).2.1 = s.counter
        · rw [hc]; exact hbv
        · have hao := l7 hc
          have two := two_le_sum_map Agent.ownsN s.agents i j a b hi hj hij
          have : Agent.ownsN a = 1 := by simp [Agent.ownsN, hao]
          have : Agent.ownsN b = 1 := by simp [Agent.ownsN, Agent.owns, hv]
          omega

theorem inv_run (sched : List (Nat × Action)) :
    ∀ s : State, MutexInv s → s.disciplined sched = true → MutexInv (s.run sched) := by
  induction sched with
  | nil => intro s h _; exact h
  | cons ev rest ih =>
    intro s h hd
    obtain ⟨i, x⟩ := ev
    simp only [State.disciplined, Bool.and_eq_true] at hd
    apply ih _ _ hd.2
    apply inv_step s i x h
    intro a ha hx
    have := hd.1
    simp [hx, ha] at this
    exact this

theorem length_step (s : State) (i : Nat) (x : Action) :
    (s.step i x).agents.length = s.agents.length := by
  cases hi : s.agents[i]? with
  | none => rw [step_eq_none s i x hi]
  | some a => rw [step_eq s i x a hi]; simp

theorem length_run (sched : List (Nat × Action)) :
    ∀ s : State, (s.run sched).agents.length = s.agents.length := by
  induction sched with
  | nil => intro s; rfl
  | cons ev rest ih =>
    intro s
    obtain ⟨i, x⟩ := ev
    show ((s.step i x).run rest).agents.length = _
    rw [ih, length_step]

theorem countP_owns (l : List Agent) : l.countP Agent.owns = (l.map Agent.ownsN).sum := by
  induction l with
  | nil => rfl
  | cons a t ih =>
    by_cases h : a.owns = true <;> simp [List.countP_cons, Agent.ownsN, h, ih]; omega

theorem sum_const (l : List Agent) (f : Agent → Nat) (M : Nat) (h : ∀ a ∈ l, f a = M) :
    (l.map f).sum = l.length * M := by
  induction l with
  | nil => simp
  | cons a t ih =>
    have h1 := h a (List.mem_cons_self a t)
    have h2 := ih (fun b hb => h b (List.mem_cons_of_mem a hb))
    simp only [List.map_cons, List.sum_cons, List.length_cons, h1, h2]
    ring


theorem step_agent_self (s : State) (i : Nat) (x : Action) (a : Agent)
    (hi : s.agents[i]? = some a) :
    (s.step i x).m = (act s.m s.counter a x).1 ∧
    (s.step i x).counter = (act s.m s.counter a x).2.1 ∧
    (s.step i x).agents[i]? = some (act s.m s.counter a x).2.2 := by
  rw [step_eq s i x a hi]
  refine ⟨rfl, rfl, ?_⟩
  exact List.getElem?_set_eq_of_lt _ (List.getElem?_eq_some.mp hi).1

theorem step_agent_other (s : State) (i j : Nat) (x : Action) (h : j ≠ i) :
    (s.step j x).agents[i]? = s.agents[i]? := by
  cases hj : s.agents[j]? with
  | none => rw [step_eq_none s j x hj]
  | some b =>
    rw [step_eq s j x b hj]
    exact List.getElem?_set_ne h

theorem run_alone (i : Nat) (xs : List Action) :
    ∀ (s : State) (a : Agent), s.agents[i]? = some a →
      (s.run (xs.map (fun x => (i, x)))).m = (acts s.m s.counter a xs).1 ∧
      (s.run (xs.map (fun x => (i, x)))).counter = (acts s.m s.counter a xs).2.1 ∧
      (s.run (xs.map (fun x => (i, x)))).agents[i]? = some (acts s.m s.counter a xs).2.2 := by
  induction xs with
  | nil => intro s a h; exact ⟨rfl, rfl, h⟩
  | cons x rest ih =>
    intro s a h
    obtain ⟨h1, h2, h3⟩ := step_agent_self s i x a h
    have := ih (s.step i x) _ h3
    rw [h1, h2] at this
    exact this

theorem wf_cases (m : Mutex) (h : m.wf) :
    (m = ⟨none, false⟩ ∨ m = ⟨some ⟨1, 0⟩, true⟩) ∧ m.held = false ∨
    m = ⟨some ⟨1, 1⟩, true⟩ ∧ m.held = true := by
  rcases h with h | h | h <;> subst h <;> simp [Mutex.zero, Mutex.held, Mutex.tokens]

theorem trigger_of_triggered (ctx : Context) (e c : Cause) (h : ctx.err = some e) :
    ctx.trigger c = ctx := by
  simp [Context.trigger, h]

theorem run_quiet_triggered (i : Nat) (e : Cause) (mid : List (Nat × Action)) :
    ∀ (s : State) (b : Agent), s.agents[i]? = some b → b.ctx.err = some e →
      (∀ ev ∈ mid, ev.1 ≠ i ∨ ∃ c, ev.2 = Action.trigger c) →
      (s.run mid).agents[i]? = some b := by
  induction mid with
  | nil => intro s b h _ _; exact h
  | cons ev rest ih =>
    intro s b h he hq
    obtain ⟨j, x⟩ := ev
    have hrest : ∀ ev ∈ rest, ev.1 ≠ i ∨ ∃ c, ev.2 = Action.trigger c :=
      fun ev hev => hq ev (List.mem_cons_of_mem _ hev)
    show ((s.step j x).run rest).agents[i]? = some b
    apply ih _ _ _ he hrest
    rcases hq (j, x) (List.mem_cons_self _ _) with hj | ⟨c, hc⟩
    · rw [step_agent_other s i j x hj]; exact h
    · by_cases hj : j = i
      · subst hj
        simp only at hc
        subst hc
        rw [(step_agent_self s j _ b h).2.2]
        simp [act, trigger_of_triggered b.ctx e c he]
      · rw [step_agent_other s i j x hj]; exact h

theorem act_wf (m : Mutex) (n : Nat) (a : Agent) (x : Action) (hwf : m.wf) :
    (act m n a x).1.wf := by
  obtain ⟨pc, ⟨err, canc⟩, ret, sends, incs⟩ := a
  rcases hwf with h | h | h <;> subst h <;> cases x <;> cases pc <;> cases err <;>
    simp [act, Mutex.wf, Mutex.zero, Mutex.onceDo, Mutex.init, Chan.make, Mutex.send, Mutex.recv,
      Chan.trySend, Chan.tryRecv, Context.Err]

theorem act_callClean (m : Mutex) (n : Nat) (a : Agent) (x : Action) (h : a.callClean) :
    (act m n a x).2.2.callClean := by
  obtain ⟨pc, ⟨err, canc⟩, ret, sends, incs⟩ := a
  obtain ⟨c, once⟩ := m
  cases x <;> cases pc <;> cases err <;>
    simp_all [act, Agent.callClean, PC.inLockWithContext, Context.Err, Mutex.send] <;>
    (repeat' split) <;> simp_all

theorem send_once (m m1 : Mutex) (h : m.send = some m1) : m1.once = m.once := by
  unfold Mutex.send at h
  split at h
  · cases h
  · split at h
    · cases h
    · cases h; rfl

theorem recv_once (m m1 : Mutex) (h : m.recv = some m1) : m1.once = m.once := by
  unfold Mutex.recv at h
  split at h
  · cases h
  · split at h
    · cases h
    · cases h; rfl

theorem onceDo_once (m : Mutex) : (m.onceDo).once = true := by
  unfold Mutex.onceDo
  split
  · assumption
  · rfl

theorem act_once (m : Mutex) (n : Nat) (a : Agent) (x : Action) :
    (m.once = true → (act m n a x).1.once = true) ∧
    ((a.pc ≠ PC.idle → m.once = true) →
      (act m n a x).2.2.pc ≠ PC.idle → (act m n a x).1.once = true) := by
  obtain ⟨pc, ⟨err, canc⟩, ret, sends, incs⟩ := a
  have h1 := send_once m
  have h2 := recv_once m
  have h3 := onceDo_once m
  cases x <;> cases pc <;> cases err <;> simp only [act, Context.Err] <;>
    (try split) <;> simp_all

theorem once_run (sched : List (Nat × Action)) :
    ∀ s : State, (∀ (i : Nat) (a : Agent), s.agents[i]? = some a → a.pc ≠ PC.idle →
        s.m.once = true) →
      ∀ (i : Nat) (a : Agent), (s.run sched).agents[i]? = some a → a.pc ≠ PC.idle →
        (s.run sched).m.once = true := by
  induction sched with
  | nil => intro s h; exact h
  | cons ev rest ih =>
    intro s h
    obtain ⟨j, x⟩ := ev
    show ∀ (i : Nat) (a : Agent), ((s.step j x).run rest).agents[i]? = some a → _
    apply ih
    intro i a hi hne
    cases hj : s.agents[j]? with
    | none => rw [step_eq_none s j x hj] at hi ⊢; exact h i a hi hne
    | some b =>
      rw [(step_agent_self s j x b hj).1]
      by_cases hij : j = i
      · subst hij
        rw [(step_agent_self s j x b hj).2.2] at hi
        cases hi
        exact (act_once s.m s.counter b x).2 (h j b hj) hne
      · rw [step_agent_other s i j x hij] at hi
        exact (act_once s.m s.counter b x).1 (h i a hi hne)

theorem clean_run (sched : List (Nat × Action)) :
    ∀ s : State, s.m.wf → (∀ (i : Nat) (a : Agent), s.agents[i]? = some a → a.callClean) →
      (s.run sched).m.wf ∧
      ∀ (i : Nat) (a : Agent), (s.run sched).agents[i]? = some a → a.callClean := by
  induction sched with
  | nil => intro s h1 h2; exact ⟨h1, h2⟩
  | cons ev rest ih =>
    intro s h1 h2
    obtain ⟨j, x⟩ := ev
    show ((s.step j x).run rest).m.wf ∧ _
    apply ih
    · cases hj : s.agents[j]? with
      | none => rw [step_eq_none s j x hj]; exact h1
      | some b => rw [(step_agent_self s j x b hj).1]; exact act_wf _ _ _ _ h1
    · intro i a hi
      by_cases hij : j = i
      · subst hij
        cases hj : s.agents[j]? with
        | none => rw [step_eq_none s j x hj] at hi; exact h2 j a hi
        | some b =>
          rw [(step_agent_self s j x b hj).2.2] at hi
          cases hi
          exact act_callClean _ _ _ _ (h2 j b hj)
      · rw [step_agent_other s i j x hij] at hi
        exact h2 i a hi

theorem act_in_call (m : Mutex) (n : Nat) (a : Agent) (x : Action) (hwf : m.wf)
    (ho : m.once = true)
    (hin : a.pc.inLockWithContext = true) (hret : a.ret = none) (hs : a.sends = 0) :
    (∀ e, (act m n a x).2.2.ret = some (some e) →
      a.ctx.Err = some e ∧ (act m n a x).2.2.pc = PC.idle ∧ (act m n a x).1 = m ∧
      (act m n a x).2.2.sends = 0) ∧
    ((act m n a x).2.2.ret = some none →
      (act m n a x).2.2.pc = PC.critical ∧ m.held = false ∧ (act m n a x).1.held = true ∧
      (act m n a x).1.tokens = m.tokens + 1 ∧ (act m n a x).2.2.sends = 1) ∧
    ((act m n a x).2.2.ret = none →
      (act m n a x).2.2.pc.inLockWithContext = true ∧ (act m n a x).1 = m ∧
      (act m n a x).2.2.sends = 0) ∧
    (act m n a x).1.tokens + a.sends = m.tokens + (act m n a x).2.2.sends ∧
    (a.pc = PC.lwcRace → m.held = false → x = Action.step →
      (act m n a x).2.2.ret = some none) := by
  obtain ⟨pc, ⟨err, canc⟩, ret, sends, incs⟩ := a
  simp only at hret hs
  subst hret hs
  rcases hwf with h | h | h <;> subst h <;> cases x <;> cases pc <;> cases err <;>
    simp_all [act, Mutex.zero, Mutex.onceDo, Mutex.init, Chan.make, Mutex.send, Mutex.recv,
      Chan.trySend, Chan.tryRecv, Context.Err, PC.inLockWithContext, Mutex.held, Mutex.tokens]

theorem acts_append (xs ys : List Action) :
    ∀ (m : Mutex) (n : Nat) (a : Agent),
      acts m n a (xs ++ ys) =
        acts (acts m n a xs).1 (acts m n a xs).2.1 (acts m n a xs).2.2 ys := by
  induction xs with
  | nil => intro m n a; rfl
  | cons x rest ih =>
    intro m n a
    show acts _ _ _ (rest ++ ys) = _
    rw [ih]
    rfl

theorem acts_cycle (m : Mutex) (n : Nat) (a : Agent) (o : Option Context)
    (hwf : m.wf) (hfree : m.held = false) (hidle : a.pc = PC.idle)
    (ho : ∀ ctx, o = some ctx → ctx.Err = none) :
    (acts m n a (cycle o)).1 = ⟨some ⟨1, 0⟩, true⟩ ∧ (acts m n a (cycle o)).2.2.pc = PC.idle := by
  obtain ⟨pc, actx, ret, sends, incs⟩ := a
  simp only at hidle
  subst hidle
  cases o with
  | none =>
    rcases hwf with h | h | h <;> rw [h] at hfree ⊢
    · exact ⟨rfl, rfl⟩
    · exact ⟨rfl, rfl⟩
    · exact absurd hfree (by decide)
  | some ctx =>
    obtain ⟨cerr, ccan⟩ := ctx
    have := ho _ rfl
    simp only [Context.Err] at this
    subst this
    rcases hwf with h | h | h <;> rw [h] at hfree ⊢
    · exact ⟨rfl, rfl⟩
    · exact ⟨rfl, rfl⟩
    · exact absurd hfree (by decide)

theorem acts_cycles (cs : List (Option Context)) :
    ∀ (m : Mutex) (n : Nat) (a : Agent), m.wf → m.held = false → a.pc = PC.idle →
      (∀ ctx, some ctx ∈ cs → ctx.Err = none) →
      (acts m n a (cycles cs)).1.wf ∧ (acts m n a (cycles cs)).1.held = false ∧
      (acts m n a (cycles cs)).2.2.pc = PC.idle := by
  induction cs with
  | nil => intro m n a h1 h2 h3 _; exact ⟨h1, h2, h3⟩
  | cons o rest ih =>
    intro m n a h1 h2 h3 h4
    have key : acts m n a (cycles (o :: rest)) =
        acts (acts m n a (cycle o)).1 (acts m n a (cycle o)).2.1 (acts m n a (cycle o)).2.2
          (cycles rest) := acts_append (cycle o) (cycles rest) m n a
    rw [key]
    obtain ⟨e1, e2⟩ := acts_cycle m n a o h1 h2 h3
      (fun ctx hc => h4 ctx (by rw [hc]; exact List.mem_cons_self _ _))
    apply ih
    · rw [e1]; decide
    · rw [e1]; decide
    · exact e2
    · exact fun ctx hc => h4 ctx (List.mem_cons_of_mem _ hc)

theorem run_append (xs ys : List (Nat × Action)) :
    ∀ s : State, s.run (xs ++ ys) = (s.run xs).run ys := by
  induction xs with
  | nil => intro s; rfl
  | cons ev rest ih =>
    intro s
    obtain ⟨i, x⟩ := ev
    show (s.step i x).run (rest ++ ys) = _
    rw [ih]
    rfl

theorem disciplined_append (xs ys : List (Nat × Action)) :
    ∀ s : State, s.disciplined (xs ++ ys) = (s.disciplined xs && (s.run xs).disciplined ys) := by
  induction xs with
  | nil => intro s; simp [State.disciplined, State.run]
  | cons ev rest ih =>
    intro s
    obtain ⟨i, x⟩ := ev
    show (_ && (s.step i x).disciplined (rest ++ ys)) = _
    rw [ih]
    simp only [State.disciplined, State.run, Bool.and_assoc]

theorem run_others (i j : Nat) (hij : j ≠ i) (xs : List Action) :
    ∀ s : State, (s.run (xs.map (fun x => (i, x)))).agents[j]? = s.agents[j]? := by
  induction xs with
  | nil => intro s; rfl
  | cons x rest ih =>
    intro s
    show ((s.step i x).run (rest.map (fun x => (i, x)))).agents[j]? = _
    rw [ih, step_agent_other s j i x (fun q => hij q.symm)]

theorem round_ok (s : State) (i : Nat) (a : Agent) (hwf : s.m.wf) (hfree : s.m.held = false)
    (ha : s.agents[i]? = some a) (hidle : a.pc = PC.idle) :
    (s.run (lockIncUnlock i)).m.wf ∧ (s.run (lockIncUnlock i)).m.held = false ∧
    (∃ b, (s.run (lockIncUnlock i)).agents[i]? = some b ∧ b.pc = PC.idle ∧
      b.incs = a.incs + 1) ∧
    (∀ j, j ≠ i → (s.run (lockIncUnlock i)).agents[j]? = s.agents[j]?) ∧
    s.disciplined (lockIncUnlock i) = true := by
  obtain ⟨pc, actx, ret, sends, incs⟩ := a
  simp only at hidle
  subst hidle
  have r := run_alone i [Action.callLock, Action.step, Action.step, Action.step,
    Action.callUnlock, Action.step] s _ ha
  have r4 := run_alone i [Action.callLock, Action.step, Action.step, Action.step] s _ ha
  have o := fun j (hj : j ≠ i) => run_others i j hj [Action.callLock, Action.step, Action.step,
    Action.step, Action.callUnlock, Action.step] s
  have hm : (acts s.m s.counter ⟨PC.idle, actx, ret, sends, incs⟩ [Action.callLock, Action.step,
      Action.step, Action.step, Action.callUnlock, Action.step]).1 = ⟨some ⟨1, 0⟩, true⟩ ∧
      (acts s.m s.counter ⟨PC.idle, actx, ret, sends, incs⟩ [Action.callLock, Action.step,
      Action.step, Action.step, Action.callUnlock, Action.step]).2.2 =
        ⟨PC.idle, actx, none, 1, incs + 1⟩ ∧
      (acts s.m s.counter ⟨PC.idle, actx, ret, sends, incs⟩ [Action.callLock, Action.step,
      Action.step, Action.step]).2.2.pc = PC.critical := by
    rcases hwf with h | h | h <;> rw [h] at hfree ⊢
    · exact ⟨rfl, rfl, rfl⟩
    · exact ⟨rfl, rfl, rfl⟩
    · exact absurd hfree (by decide)
  obtain ⟨hm1, hm2, hm3⟩ := hm
  have e1 : (s.run (lockIncUnlock i)).m = ⟨some ⟨1, 0⟩, true⟩ := r.1.trans hm1
  have e2 : (s.run (lockIncUnlock i)).agents[i]? = some ⟨PC.idle, actx, none, 1, incs + 1⟩ :=
    r.2.2.trans (congrArg some hm2)
  refine ⟨by rw [e1]; decide, by rw [e1]; decide, ⟨_, e2, rfl, rfl⟩, o, ?_⟩
  have d4 : (s.run [(i, Action.callLock), (i, Action.step), (i, Action.step),
      (i, Action.step)]).agents[i]? = _ := r4.2.2
  simp only [lockIncUnlock, State.disciplined, Bool.true_and, Bool.and_true]
  simp only [State.run] at d4
  rw [d4]
  simp only [hm3, decide_True]

theorem rounds_ok (i M : Nat) :
    ∀ (s : State) (a : Agent), s.m.wf → s.m.held = false → s.agents[i]? = some a →
      a.pc = PC.idle →
      (s.run (rounds i M)).m.wf ∧ (s.run (rounds i M)).m.held = false ∧
      (∃ b, (s.run (rounds i M)).agents[i]? = some b ∧ b.pc = PC.idle ∧
        b.incs = a.incs + M) ∧
      (∀ j, j ≠ i → (s.run (rounds i M)).agents[j]? = s.agents[j]?) ∧
      s.disciplined (rounds i M) = true := by
  induction M with
  | zero => intro s a h1 h2 h3 h4; exact ⟨h1, h2, ⟨a, h3, h4, rfl⟩, fun _ _ => rfl, rfl⟩
  | succ M ih =>
    intro s a h1 h2 h3 h4
    obtain ⟨r1, r2, ⟨b, r3, r4, r5⟩, r6, r7⟩ := round_ok s i a h1 h2 h3 h4
    obtain ⟨q1, q2, ⟨d, q3, q4, q5⟩, q6, q7⟩ := ih (s.run (lockIncUnlock i)) b r1 r2 r3 r4
    have e : rounds i (M + 1) = lockIncUnlock i ++ rounds i M := rfl
    rw [e, run_append, disciplined_append, r7, q7]
    refine ⟨q1, q2, ⟨d, q3, q4, by omega⟩, ?_, rfl⟩
    intro j hj
    rw [q6 j hj, r6 j hj]

theorem allRounds_ok (n M : Nat) :
    ∀ k, k ≤ n →
      ((State.start n).run (allRounds k M)).m.wf ∧
      ((State.start n).run (allRounds k M)).m.held = false ∧
      (∀ j, j < k → ∃ b, ((State.start n).run (allRounds k M)).agents[j]? = some b ∧
        b.pc = PC.idle ∧ b.incs = M) ∧
      (∀ j, k ≤ j → ((State.start n).run (allRounds k M)).agents[j]? =
        (State.start n).agents[j]?) ∧
      (State.start n).disciplined (allRounds k M) = true := by
  intro k
  induction k with
  | zero =>
    intro _
    exact ⟨Or.inl rfl, rfl, fun j hj => absurd hj (Nat.not_lt_zero j), fun _ _ => rfl, rfl⟩
  | succ k ih =>
    intro hk
    obtain ⟨i1, i2, i3, i4, i5⟩ := ih (by omega)
    have hfresh : ((State.start n).run (allRounds k M)).agents[k]? = some Agent.fresh := by
      rw [i4 k (Nat.le_refl k)]
      simp [State.start, List.getElem?_replicate]
      omega
    obtain ⟨q1, q2, ⟨d, q3, q4, q5⟩, q6, q7⟩ :=
      rounds_ok k M ((State.start n).run (allRounds k M)) Agent.fresh i1 i2 hfresh rfl
    have e : allRounds (k + 1) M = allRounds k M ++ rounds k M := rfl
    rw [e, run_append, disciplined_append, i5, q7]
    refine ⟨q1, q2, ?_, ?_, rfl⟩
    · intro j hj
      by_cases hjk : j = k
      · subst hjk
        exact ⟨d, q3, q4, by rw [q5]; simp [Agent.fresh]⟩
      · rw [q6 j hjk]
        exact i3 j (by omega)
    · intro j hj
      rw [q6 j (by omega)]
      exact i4 j (by omega)

theorem allRounds_done (n M : Nat) :
    (State.start n).disciplined (allRounds n M) = true ∧
    ∀ a ∈ ((State.start n).run (allRounds n M)).agents, a.pc = PC.idle ∧ a.incs = M := by
  obtain ⟨-, -, h3, -, h5⟩ := allRounds_ok n M n (Nat.le_refl n)
  refine ⟨h5, ?_⟩
  intro a ha
  obtain ⟨j, hj, rfl⟩ := List.getElem_of_mem ha
  have hl : ((State.start n).run (allRounds n M)).agents.length = n := by
    rw [length_run]; simp [State.start]
  obtain ⟨b, hb, hb1, hb2⟩ := h3 j (by omega)
  rw [List.getElem?_eq_getElem hj] at hb
  cases hb
  exact ⟨hb1, hb2⟩

theorem counter_of_done (n : Nat) (sched : List (Nat × Action))
    (hd : (State.start n).disciplined sched = true) (M : Nat)
    (hM : ∀ a ∈ ((State.start n).run sched).agents, a.incs = M) :
    ((State.start n).run sched).counter = n * M := by
  have h := inv_run sched (State.start n) (inv_start n) hd
  have hl : ((State.start n).run sched).agents.length = n := by
    rw [length_run]; simp [State.start]
  rw [← h.cnt, sum_const _ _ M hM, hl]

theorem act_at_try (m : Mutex) (n : Nat) (w : Agent) (x : Action)
    (hpc : w.pc = PC.lwcTry) (hx : x ≠ Action.step) :
    ∃ ctx, act m n w x = (m, n, ⟨PC.lwcTry, ctx, w.ret, w.sends, w.incs⟩) := by
  obtain ⟨pc, actx, ret, sends, incs⟩ := w
  simp only at hpc
  subst hpc
  cases x with
  | step => exact absurd rfl hx
  | trigger e => exact ⟨_, rfl⟩
  | callLock => exact ⟨actx, rfl⟩
  | callLockWithContext c => exact ⟨actx, rfl⟩
  | callUnlock => exact ⟨actx, rfl⟩
  | done => exact ⟨actx, rfl⟩

theorem step_trigger_m (s : State) (j : Nat) (c : Cause) :
    (s.step j (Action.trigger c)).m = s.m := by
  cases hj : s.agents[j]? with
  | none => rw [step_eq_none s j _ hj]
  | some d => rw [(step_agent_self s j _ d hj).1]; rfl

theorem run_at_try (i : Nat) (mid : List (Nat × Action)) :
    ∀ (s : State) (b : Agent), s.agents[i]? = some b → b.pc = PC.lwcTry →
      (∀ ev ∈ mid, (∃ c, ev.2 = Action.trigger c) ∨ (ev.1 = i ∧ ev.2 ≠ Action.step)) →
      (s.run mid).m = s.m ∧
      ∃ ctx, (s.run mid).agents[i]? = some ⟨PC.lwcTry, ctx, b.ret, b.sends, b.incs⟩ := by
  induction mid with
  | nil =>
    intro s b h hpc _
    refine ⟨rfl, b.ctx, ?_⟩
    rw [← hpc]
    exact h
  | cons ev rest ih =>
    intro s b h hpc hq
    obtain ⟨j, x⟩ := ev
    have hrest : ∀ ev ∈ rest,
        (∃ c, ev.2 = Action.trigger c) ∨ (ev.1 = i ∧ ev.2 ≠ Action.step) :=
      fun ev hev => hq ev (List.mem_cons_of_mem _ hev)
    show ((s.step j x).run rest).m = s.m ∧
      ∃ ctx, ((s.step j x).run rest).agents[i]? = some ⟨PC.lwcTry, ctx, b.ret, b.sends, b.incs⟩
    by_cases hj : j = i
    · subst hj
      have hx : x ≠ Action.step := by
        rcases hq (j, x) (List.mem_cons_self _ _) with ⟨c, hc⟩ | ⟨-, hc⟩
        · simp only at hc
          rw [hc]
          exact fun q => by cases q
        · exact hc
      obtain ⟨ctx1, he⟩ := act_at_try s.m s.counter b x hpc hx
      obtain ⟨e1, -, e3⟩ := step_agent_self s j x b h
      rw [he] at e1 e3
      have := ih (s.step j x) _ e3 rfl hrest
      rw [e1] at this
      exact this
    · have hx : ∃ c, x = Action.trigger c := by
        rcases hq (j, x) (List.mem_cons_self _ _) with hc | ⟨hc, -⟩
        · exact hc
        · exact absurd hc hj
      obtain ⟨c, rfl⟩ := hx
      have h3 : (s.step j (Action.trigger c)).agents[i]? = some b := by
        rw [step_agent_other s i j _ hj]; exact h
      have := ih (s.step j (Action.trigger c)) b h3 hpc hrest
      rw [step_trigger_m] at this
      exact this

/-! ## Lemmas on the waiter table, `Signal` and `Broadcast` -/

theorem lookup_none_iff (t : Waits) (k : Nat) :
    Waits.lookup t k = none ↔ k ∉ Waits.keys t := by
  induction t with
  | nil => simp [Waits.lookup, Waits.keys]
  | cons e t ih =>
    obtain ⟨k1, r1⟩ := e
    by_cases h : k1 = k
    · simp [Waits.lookup, Waits.keys, h]
    · have h2 : ¬ k = k1 := fun q => h q.symm
      simp only [Waits.keys] at ih
      simp [Waits.lookup, Waits.keys, h, h2, ih]

theorem lookup_some_iff (t : Waits) (k r : Nat) (hk : (Waits.keys t).Nodup) :
    Waits.lookup t k = some r ↔ (k, r) ∈ t := by
  induction t with
  | nil => simp [Waits.lookup]
  | cons e t ih =>
    obtain ⟨k1, r1⟩ := e
    simp only [Waits.keys, List.map_cons, List.nodup_cons] at hk
    have ih2 := ih hk.2
    by_cases h : k1 = k
    · subst h
      have hn : ∀ r, (k1, r) ∉ t := by
        intro r hr
        exact hk.1 (List.mem_map.mpr ⟨(k1, r), hr, rfl⟩)
      simp [Waits.lookup, hn]
      exact eq_comm
    · have h2 : ¬ k = k1 := fun q => h q.symm
      simp [Waits.lookup, h, h2, ih2]

theorem mem_delete (t : Waits) (k : Nat) (e : Nat × Nat) :
    e ∈ Waits.delete t k ↔ e ∈ t ∧ e.1 ≠ k := by
  simp [Waits.delete, List.mem_filter]

theorem keys_delete_nodup (t : Waits) (k : Nat) (hk : (Waits.keys t).Nodup) :
    (Waits.keys (Waits.delete t k)).Nodup :=
  List.Nodup.sublist (List.Sublist.map _ (List.filter_sublist t)) hk

theorem refs_delete_nodup (t : Waits) (k : Nat) (hr : (Waits.refs t).Nodup) :
    (Waits.refs (Waits.delete t k)).Nodup :=
  List.Nodup.sublist (List.Sublist.map _ (List.filter_sublist t)) hr

theorem length_delete (t : Waits) (k : Nat) (hk : (Waits.keys t).Nodup)
    (hm : k ∈ Waits.keys t) : (Waits.delete t k).length + 1 = t.length := by
  induction t with
  | nil => simp [Waits.keys] at hm
  | cons e t ih =>
    obtain ⟨k1, r1⟩ := e
    simp only [Waits.keys, List.map_cons, List.nodup_cons] at hk
    by_cases h : k1 = k
    · subst h
      have hf : Waits.delete t k1 = t := by
        apply List.filter_eq_self.mpr
        intro e he
        simp only [ne_eq, decide_eq_true_eq]
        intro q
        exact hk.1 (List.mem_map.mpr ⟨e, he, q⟩)
      have : Waits.delete ((k1, r1) :: t) k1 = Waits.delete t k1 := by
        simp [Waits.delete]
      rw [this, hf]
      rfl
    · have hm2 : k ∈ Waits.keys t := by
        simp only [Waits.keys, List.map_cons, List.mem_cons] at hm
        rcases hm with q | q
        · exact absurd q.symm h
        · exact q
      have : Waits.delete ((k1, r1) :: t) k = (k1, r1) :: Waits.delete t k := by
        simp [Waits.delete, h]
      rw [this]
      simp only [List.length_cons]
      have := ih hk.2 hm2
      omega

theorem ready_iff (h : Heap) (r : Nat) :
    h.ready r = true ↔ ∃ ch, h[r]? = some ch ∧ ch.len < ch.cap := by
  unfold Heap.ready
  cases h[r]? with
  | none => simp
  | some ch => simp

theorem trySend_some (h : Heap) (r : Nat) (ch : Chan) (h1 : h[r]? = some ch)
    (h2 : ch.len < ch.cap) : h.trySend r = some (h.set r ⟨ch.cap, ch.len + 1⟩) := by
  simp [Heap.trySend, h1, Chan.trySend, h2]

theorem trySend_none (h : Heap) (r : Nat) (hr : h.ready r = false) : h.trySend r = none := by
  unfold Heap.ready at hr
  unfold Heap.trySend
  cases hc : h[r]? with
  | none => rfl
  | some ch =>
    rw [hc] at hr
    simp only [decide_eq_false_iff_not] at hr
    simp [Chan.trySend, hr]

theorem signal_none (h : Heap) (c : Cond) (ks : List Nat)
    (hn : ∀ k ∈ ks, ∀ r, Waits.lookup c.channelWaits k = some r → h.ready r = false) :
    Cond.Signal h c ks = (h, c) := by
  induction ks with
  | nil => rfl
  | cons k rest ih =>
    have ih2 := ih (fun k hk => hn k (List.mem_cons_of_mem _ hk))
    cases hl : Waits.lookup c.channelWaits k with
    | none => simp only [Cond.Signal, hl]; exact ih2
    | some r =>
      simp only [Cond.Signal, hl, trySend_none h r (hn k (List.mem_cons_self _ _) r hl)]
      exact ih2

theorem signal_some (h : Heap) (c : Cond) (ks : List Nat)
    (hs : ∃ k ∈ ks, ∃ r, Waits.lookup c.channelWaits k = some r ∧ h.ready r = true) :
    ∃ k ∈ ks, ∃ r ch, Waits.lookup c.channelWaits k = some r ∧ h[r]? = some ch ∧
      ch.len < ch.cap ∧
      Cond.Signal h c ks =
        (h.set r ⟨ch.cap, ch.len + 1⟩, ⟨c.nextID, Waits.delete c.channelWaits k⟩) := by
  induction ks with
  | nil => obtain ⟨k, hk, _⟩ := hs; simp at hk
  | cons k rest ih =>
    by_cases hh : ∃ r, Waits.lookup c.channelWaits k = some r ∧ h.ready r = true
    · obtain ⟨r, hl, hr⟩ := hh
      obtain ⟨ch, hc, hlt⟩ := (ready_iff h r).mp hr
      refine ⟨k, List.mem_cons_self _ _, r, ch, hl, hc, hlt, ?_⟩
      simp only [Cond.Signal, hl, trySend_some h r ch hc hlt]
    · have hrest : ∃ k ∈ rest, ∃ r, Waits.lookup c.channelWaits k = some r ∧ h.ready r = true := by
        obtain ⟨k2, hk2, r, hl, hr⟩ := hs
        rcases List.mem_cons.mp hk2 with q | q
        · subst q; exact absurd ⟨r, hl, hr⟩ hh
        · exact ⟨k2, q, r, hl, hr⟩
      obtain ⟨k2, hk2, r, ch, hl, hc, hlt, he⟩ := ih hrest
      refine ⟨k2, List.mem_cons_of_mem _ hk2, r, ch, hl, hc, hlt, ?_⟩
      rw [← he]
      cases hl1 : Waits.lookup c.channelWaits k with
      | none => simp only [Cond.Signal, hl1]
      | some r1 =>
        have : h.ready r1 = false := by
          cases hq : h.ready r1 with
          | false => rfl
          | true => exact absurd ⟨r1, hl1, hq⟩ hh
        simp only [Cond.Signal, hl1, trySend_none h r1 this]

theorem mem_of_lookup (t : Waits) (k r : Nat) (h : Waits.lookup t k = some r) : (k, r) ∈ t := by
  induction t with
  | nil => simp [Waits.lookup] at h
  | cons e t ih =>
    obtain ⟨k1, r1⟩ := e
    by_cases hk : k1 = k
    · simp [Waits.lookup, hk] at h
      subst h; subst hk
      exact List.mem_cons_self _ _
    · simp [Waits.lookup, hk] at h
      exact List.mem_cons_of_mem _ (ih h)

theorem mem_delete_iff_ne (t : Waits) (k r : Nat) (hk : (Waits.keys t).Nodup)
    (hm : (k, r) ∈ t) (e : Nat × Nat) :
    e ∈ Waits.delete t k ↔ e ∈ t ∧ e ≠ (k, r) := by
  rw [mem_delete]
  constructor
  · rintro ⟨h1, h2⟩
    exact ⟨h1, fun q => h2 (by rw [q])⟩
  · rintro ⟨h1, h2⟩
    refine ⟨h1, fun q => h2 ?_⟩
    exact List.inj_on_of_nodup_map hk h1 hm q

theorem getElem?_set_other (h : Heap) (r r1 : Nat) (ch : Chan) (hne : r1 ≠ r) :
    (h.set r ch)[r1]? = h[r1]? :=
  List.getElem?_set_ne (fun q => hne q.symm)

theorem exists_ready_key (h : Heap) (c : Cond) (order : List Nat)
    (hk : (Waits.keys c.channelWaits).Nodup)
    (ho : order.Perm (Waits.keys c.channelWaits))
    (hs : ∃ e ∈ c.channelWaits, h.ready e.2 = true) :
    ∃ k ∈ order, ∃ r, Waits.lookup c.channelWaits k = some r ∧ h.ready r = true := by
  obtain ⟨⟨k, r⟩, he, hr⟩ := hs
  refine ⟨k, ?_, r, (lookup_some_iff _ k r hk).mpr he, hr⟩
  exact ho.mem_iff.mpr (List.mem_map.mpr ⟨(k, r), he, rfl⟩)

theorem enrol_channel (h : Heap) (c : Cond) (h1 : Heap) (c1 : Cond) (ch : Nat)
    (he : Cond.enrol h c = some (h1, c1, ch)) :
    h1[ch]? = some ⟨1, 0⟩ ∧ ch = h.length ∧ ∀ r, r < h.length → h1[r]? = h[r]? := by
  unfold Cond.enrol at he
  split at he
  · cases he
  · cases he
    refine ⟨?_, rfl, ?_⟩
    · simp [Chan.make]
    · intro r hr
      simp [List.getElem?_append_left hr]

theorem signals_all (orders : List (List Nat)) :
    ∀ (h : Heap) (c : Cond), (Waits.keys c.channelWaits).Nodup →
      (Waits.refs c.channelWaits).Nodup →
      (∀ e ∈ c.channelWaits, h.ready e.2 = true) →
      orders.length = c.channelWaits.length → Cond.orders h c orders →
      (Cond.signals h c orders).2.channelWaits = [] ∧
      (∀ e ∈ c.channelWaits, ∃ ch, h[e.2]? = some ch ∧
        (Cond.signals h c orders).1[e.2]? = some ⟨ch.cap, ch.len + 1⟩) ∧
      (∀ r, r ∉ Waits.refs c.channelWaits → (Cond.signals h c orders).1[r]? = h[r]?) := by
  induction orders with
  | nil =>
    intro h c _ _ _ hl _
    have : c.channelWaits = [] := List.length_eq_zero.mp hl.symm
    simp [Cond.signals, this]
  | cons o os ih =>
    intro h c hk hr hready hl ho
    obtain ⟨ho1, ho2⟩ := ho
    have hne : ∃ e ∈ c.channelWaits, h.ready e.2 = true := by
      cases hc : c.channelWaits with
      | nil => rw [hc] at hl; simp at hl
      | cons e t => exact ⟨e, List.mem_cons_self _ _, hready e (by rw [hc]; exact List.mem_cons_self _ _)⟩
    obtain ⟨k, -, r, ch, hlk, hch, hlt, hsig⟩ :=
      signal_some h c o (exists_ready_key h c o hk ho1 hne)
    have hmem := mem_of_lookup _ k r hlk
    have hdel := mem_delete_iff_ne c.channelWaits k r hk hmem
    have hlen := length_delete c.channelWaits k hk (List.mem_map.mpr ⟨(k, r), hmem, rfl⟩)
    have hother : ∀ e ∈ Waits.delete c.channelWaits k, e.2 ≠ r := by
      intro e he q
      obtain ⟨h1, h2⟩ := (hdel e).mp he
      exact h2 (List.inj_on_of_nodup_map hr h1 hmem q)
    rw [hsig] at ho2
    have ih2 := ih (h.set r ⟨ch.cap, ch.len + 1⟩) ⟨c.nextID, Waits.delete c.channelWaits k⟩
      (keys_delete_nodup _ k hk) (refs_delete_nodup _ k hr)
      (by
        intro e he
        have := hready e ((hdel e).mp he).1
        unfold Heap.ready at this ⊢
        rw [getElem?_set_other h r e.2 _ (hother e he)]
        exact this)
      (by simp only [List.length_cons] at hl; show os.length = (Waits.delete c.channelWaits k).length; omega) ho2
    have hs : Cond.signals h c (o :: os) =
        Cond.signals (h.set r ⟨ch.cap, ch.len + 1⟩) ⟨c.nextID, Waits.delete c.channelWaits k⟩ os := by
      simp only [Cond.signals, hsig]
    rw [hs]
    obtain ⟨i1, i2, i3⟩ := ih2
    have hrn : r ∉ Waits.refs (Waits.delete c.channelWaits k) := by
      intro q
      obtain ⟨e, he, he2⟩ := List.mem_map.mp q
      exact hother e he he2
    have hrlt : r < h.length := (List.getElem?_eq_some.mp hch).1
    refine ⟨i1, ?_, ?_⟩
    · intro e he
      by_cases heq : e = (k, r)
      · subst heq
        refine ⟨ch, hch, ?_⟩
        rw [i3 r hrn]
        exact List.getElem?_set_eq_of_lt _ hrlt
      · have hd := (hdel e).mpr ⟨he, heq⟩
        obtain ⟨ch2, hc2, hf⟩ := i2 e hd
        rw [getElem?_set_other h r e.2 _ (hother e hd)] at hc2
        exact ⟨ch2, hc2, hf⟩
    · intro r1 hr1
      have hr1n : r1 ∉ Waits.refs (Waits.delete c.channelWaits k) := by
        intro q
        obtain ⟨e, he, he2⟩ := List.mem_map.mp q
        exact hr1 (List.mem_map.mpr ⟨e, ((hdel e).mp he).1, he2⟩)
      rw [i3 r1 hr1n]
      apply getElem?_set_other
      intro q
      exact hr1 (by rw [q]; exact List.mem_map.mpr ⟨(k, r), hmem, rfl⟩)



theorem mem_deleteAll (ks : List Nat) :
    ∀ (t : Waits) (e : Nat × Nat), e ∈ Waits.deleteAll t ks ↔ e ∈ t ∧ e.1 ∉ ks := by
  induction ks with
  | nil => intro t e; simp [Waits.deleteAll]
  | cons k rest ih =>
    intro t e
    simp only [Waits.deleteAll, ih, mem_delete, List.mem_cons, not_or]
    tauto

theorem ready_set_other (h : Heap) (r r1 : Nat) (ch : Chan) (hne : r1 ≠ r) :
    Heap.ready (h.set r ch) r1 = h.ready r1 := by
  unfold Heap.ready
  rw [getElem?_set_other h r r1 ch hne]

theorem ready_false_of_none (h : Heap) (r : Nat) (hn : h.trySend r = none) :
    h.ready r = false := by
  cases hq : h.ready r with
  | false => rfl
  | true =>
    obtain ⟨ch, hc, hlt⟩ := (ready_iff h r).mp hq
    rw [trySend_some h r ch hc hlt] at hn
    cases hn

theorem bsends_spec (c : Cond) (ks : List Nat) :
    ∀ (h : Heap) (acc : List Nat),
      (ks.filterMap (Waits.lookup c.channelWaits)).Nodup →
      (∀ r, r ∈ ks.filterMap (Waits.lookup c.channelWaits) → ∀ ch, h[r]? = some ch →
        ch.len < ch.cap →
        (Cond.broadcastSends c h acc ks).1[r]? = some ⟨ch.cap, ch.len + 1⟩) ∧
      (∀ r, r ∉ ks.filterMap (Waits.lookup c.channelWaits) ∨ h.ready r = false →
        (Cond.broadcastSends c h acc ks).1[r]? = h[r]?) ∧
      (∀ k, k ∈ (Cond.broadcastSends c h acc ks).2 ↔
        k ∈ acc ∨ (k ∈ ks ∧ ∃ r, Waits.lookup c.channelWaits k = some r ∧ h.ready r = true)) := by
  induction ks with
  | nil =>
    intro h acc _
    simp [Cond.broadcastSends]
  | cons k rest ih =>
    intro h acc hnd
    cases hl : Waits.lookup c.channelWaits k with
    | none =>
      have hfm : (k :: rest).filterMap (Waits.lookup c.channelWaits) =
          rest.filterMap (Waits.lookup c.channelWaits) := by
        simp [List.filterMap_cons, hl]
      rw [hfm] at hnd ⊢
      obtain ⟨i1, i2, i3⟩ := ih h acc hnd
      have hb : Cond.broadcastSends c h acc (k :: rest) = Cond.broadcastSends c h acc rest := by
        simp only [Cond.broadcastSends, hl]
      rw [hb]
      refine ⟨i1, i2, ?_⟩
      intro k1
      rw [i3 k1]
      constructor
      · rintro (q | ⟨q1, q2⟩)
        · exact Or.inl q
        · exact Or.inr ⟨List.mem_cons_of_mem _ q1, q2⟩
      · rintro (q | ⟨q1, r, q2, q3⟩)
        · exact Or.inl q
        · rcases List.mem_cons.mp q1 with q | q
          · subst q; rw [hl] at q2; cases q2
          · exact Or.inr ⟨q, r, q2, q3⟩
    | some r =>
      have hfm : (k :: rest).filterMap (Waits.lookup c.channelWaits) =
          r :: rest.filterMap (Waits.lookup c.channelWaits) := by
        simp [List.filterMap_cons, hl]
      rw [hfm] at hnd ⊢
      obtain ⟨hrn, hnd2⟩ := List.nodup_cons.mp hnd
      have hrest : ∀ k1 ∈ rest, ∀ r1, Waits.lookup c.channelWaits k1 = some r1 → r1 ≠ r := by
        intro k1 hk1 r1 hl1 q
        subst q
        exact hrn (List.mem_filterMap.mpr ⟨k1, hk1, hl1⟩)
      cases hs : h.trySend r with
      | none =>
        have hnr := ready_false_of_none h r hs
        obtain ⟨i1, i2, i3⟩ := ih h acc hnd2
        have hb : Cond.broadcastSends c h acc (k :: rest) = Cond.broadcastSends c h acc rest := by
          simp only [Cond.broadcastSends, hl, hs]
        rw [hb]
        refine ⟨?_, ?_, ?_⟩
        · intro r1 hr1 ch hc hlt
          rcases List.mem_cons.mp hr1 with q | q
          · subst q
            have : h.ready r1 = true := (ready_iff h r1).mpr ⟨ch, hc, hlt⟩
            rw [hnr] at this
            cases this
          · exact i1 r1 q ch hc hlt
        · intro r1 hr1
          apply i2 r1
          rcases hr1 with q | q
          · exact Or.inl (fun q2 => q (List.mem_cons_of_mem _ q2))
          · exact Or.inr q
        · intro k1
          rw [i3 k1]
          constructor
          · rintro (q | ⟨q1, q2⟩)
            · exact Or.inl q
            · exact Or.inr ⟨List.mem_cons_of_mem _ q1, q2⟩
          · rintro (q | ⟨q1, r1, q2, q3⟩)
            · exact Or.inl q
            · rcases List.mem_cons.mp q1 with q | q
              · subst q
                rw [hl] at q2
                cases q2
                rw [hnr] at q3
                cases q3
              · exact Or.inr ⟨q, r1, q2, q3⟩
      | some h1 =>
        have hrdy : h.ready r = true := by
          cases hq : h.ready r with
          | true => rfl
          | false => rw [trySend_none h r hq] at hs; cases hs
        obtain ⟨ch0, hc0, hlt0⟩ := (ready_iff h r).mp hrdy
        have hh1 : h1 = h.set r ⟨ch0.cap, ch0.len + 1⟩ := by
          rw [trySend_some h r ch0 hc0 hlt0] at hs
          exact (Option.some.inj hs).symm
        subst hh1
        obtain ⟨i1, i2, i3⟩ := ih (h.set r ⟨ch0.cap, ch0.len + 1⟩) (acc ++ [k]) hnd2
        have hb : Cond.broadcastSends c h acc (k :: rest) =
            Cond.broadcastSends c (h.set r ⟨ch0.cap, ch0.len + 1⟩) (acc ++ [k]) rest := by
          simp only [Cond.broadcastSends, hl, hs]
        rw [hb]
        have hrlt : r < h.length := (List.getElem?_eq_some.mp hc0).1
        refine ⟨?_, ?_, ?_⟩
        · intro r1 hr1 ch hc hlt
          rcases List.mem_cons.mp hr1 with q | q
          · subst q
            rw [i2 r1 (Or.inl hrn), List.getElem?_set_eq_of_lt _ hrlt]
            rw [hc0] at hc
            cases hc
            rfl
          · have hne : r1 ≠ r := fun q2 => hrn (q2 ▸ q)
            apply i1 r1 q ch _ hlt
            rw [getElem?_set_other h r r1 _ hne]
            exact hc
        · intro r1 hr1
          have hne : r1 ≠ r := by
            rcases hr1 with q | q
            · exact fun q2 => q (q2 ▸ List.mem_cons_self _ _)
            · intro q2
              subst q2
              rw [hrdy] at q
              cases q
          rw [← getElem?_set_other h r r1 ⟨ch0.cap, ch0.len + 1⟩ hne]
          apply i2 r1
          rcases hr1 with q | q
          · exact Or.inl (fun q2 => q (List.mem_cons_of_mem _ q2))
          · exact Or.inr (by rw [ready_set_other h r r1 _ hne]; exact q)
        · intro k1
          rw [i3 k1]
          constructor
          · rintro (q | ⟨q1, r1, q2, q3⟩)
            · rcases List.mem_append.mp q with q | q
              · exact Or.inl q
              · rw [List.mem_singleton] at q
                subst q
                exact Or.inr ⟨List.mem_cons_self _ _, r, hl, hrdy⟩
            · refine Or.inr ⟨List.mem_cons_of_mem _ q1, r1, q2, ?_⟩
              rw [ready_set_other h r r1 _ (hrest k1 q1 r1 q2)] at q3
              exact q3
          · rintro (q | ⟨q1, r1, q2, q3⟩)
            · exact Or.inl (List.mem_append_left _ q)
            · rcases List.mem_cons.mp q1 with q | q
              · subst q
                exact Or.inl (List.mem_append_right _ (List.mem_singleton.mpr rfl))
              · refine Or.inr ⟨q, r1, q2, ?_⟩
                rw [ready_set_other h r r1 _ (hrest k1 q r1 q2)]
                exact q3

theorem order_refs (c : Cond) (order : List Nat)
    (hk : (Waits.keys c.channelWaits).Nodup) (hr : (Waits.refs c.channelWaits).Nodup)
    (ho : order.Perm (Waits.keys c.channelWaits)) :
    (order.filterMap (Waits.lookup c.channelWaits)).Nodup ∧
    ∀ r, r ∈ order.filterMap (Waits.lookup c.channelWaits) ↔ r ∈ Waits.refs c.channelWaits := by
  constructor
  · apply List.Nodup.filterMap _ (ho.nodup_iff.mpr hk)
    intro k1 k2 r h1 h2
    have m1 := mem_of_lookup _ k1 r (Option.mem_def.mp h1)
    have m2 := mem_of_lookup _ k2 r (Option.mem_def.mp h2)
    have := List.inj_on_of_nodup_map hr m1 m2 rfl
    exact congrArg Prod.fst this
  · intro r
    rw [List.mem_filterMap]
    constructor
    · rintro ⟨k, -, hl⟩
      exact List.mem_map.mpr ⟨(k, r), mem_of_lookup _ k r hl, rfl⟩
    · intro hm
      obtain ⟨⟨k, r1⟩, he, hq⟩ := List.mem_map.mp hm
      simp only at hq
      subst hq
      exact ⟨k, ho.mem_iff.mpr (List.mem_map.mpr ⟨(k, r1), he, rfl⟩),
        (lookup_some_iff _ k r1 hk).mpr he⟩

theorem probe_none (t : Waits) :
    ∀ (fuel next : Nat), Cond.probe t fuel next = none →
      ∀ j, j < fuel → (next + 1 + j) % 2 ^ 64 ∈ Waits.keys t := by
  intro fuel
  induction fuel with
  | zero => intro next _ j hj; omega
  | succ fuel ih =>
    intro next hp j hj
    unfold Cond.probe at hp
    split at hp
    · cases hp
    · rename_i hl
      cases j with
      | zero =>
        by_contra hm
        exact hl (by rw [(lookup_none_iff t _).mpr hm]; rfl)
      | succ j =>
        have := ih _ hp j (by omega)
        rw [Nat.add_assoc, Nat.mod_add_mod] at this
        have e : next + 1 + (j + 1) = next + 1 + (1 + j) := by omega
        rw [e]
        exact this

theorem probe_spec (t : Waits) :
    ∀ (fuel next id : Nat), Cond.probe t fuel next = some id →
      Waits.lookup t id = none ∧ id < 2 ^ 64 := by
  intro fuel
  induction fuel with
  | zero => intro next id hp; simp [Cond.probe] at hp
  | succ fuel ih =>
    intro next id hp
    unfold Cond.probe at hp
    split at hp
    · rename_i hl
      cases hp
      exact ⟨Option.isNone_iff_eq_none.mp hl, Nat.mod_lt _ (by positivity)⟩
    · exact ih _ id hp

theorem probe_terminates (t : Waits) (next : Nat) (hlen : t.length < 2 ^ 64) :
    ∃ id, Cond.probe t (2 ^ 64) next = some id := by
  cases hp : Cond.probe t (2 ^ 64) next with
  | some id => exact ⟨id, rfl⟩
  | none =>
    exfalso
    have hall := probe_none t (2 ^ 64) next hp
    have hinj : Set.InjOn (fun j => (next + 1 + j) % 2 ^ 64) (Finset.range (2 ^ 64) : Finset Nat) := by
      intro a ha b hb hab
      simp only [Finset.coe_range, Set.mem_Iio] at ha hb
      have h1 : Nat.ModEq (2 ^ 64) (next + 1 + a) (next + 1 + b) := hab
      have h2 := Nat.ModEq.add_left_cancel' (next + 1) h1
      exact Nat.ModEq.eq_of_lt_of_lt h2 ha hb
    have hcard := Finset.card_le_card_of_injOn (t := (Waits.keys t).toFinset)
      (fun j => (next + 1 + j) % 2 ^ 64)
      (by
        intro j hj
        exact List.mem_toFinset.mpr (hall j (Finset.mem_range.mp hj))) hinj
    rw [Finset.card_range] at hcard
    have h3 := List.toFinset_card_le (Waits.keys t)
    have h4 : (Waits.keys t).length = t.length := by simp [Waits.keys]
    omega

theorem enrol_returns (h : Heap) (c : Cond) (hlen : c.channelWaits.length < 2 ^ 64) :
    ∃ id, Waits.lookup c.channelWaits id = none ∧ id < 2 ^ 64 ∧
      Cond.enrol h c =
        some (h ++ [Chan.make 1], ⟨id, Waits.insert c.channelWaits id h.length⟩, h.length) := by
  obtain ⟨id, hp⟩ := probe_terminates c.channelWaits c.nextID hlen
  obtain ⟨h1, h2⟩ := probe_spec _ _ _ _ hp
  refine ⟨id, h1, h2, ?_⟩
  unfold Cond.enrol
  rw [hp]

theorem length_deleteAll_le (ks : List Nat) :
    ∀ t : Waits, (Waits.deleteAll t ks).length ≤ t.length := by
  induction ks with
  | nil => intro t; exact Nat.le_refl _
  | cons k rest ih =>
    intro t
    exact Nat.le_trans (ih (Waits.delete t k)) (List.length_filter_le _ t)

theorem cstep_eq (s : CondState) (i : Nat) (x : CondAction) (w : Waiter)
    (hi : s.agents[i]? = some w) : s.step i x = s.act i w x := by
  simp [CondState.step, hi]

theorem cstep_eq_none (s : CondState) (i : Nat) (x : CondAction) (hi : s.agents[i]? = none) :
    s.step i x = s := by
  simp [CondState.step, hi]

theorem set_self (l : List Waiter) (i : Nat) (w : Waiter) (hi : l[i]? = some w) :
    l.set i w = l := by
  apply List.ext_getElem?
  intro j
  by_cases hj : i = j
  · subst hj
    rw [List.getElem?_set_eq_of_lt _ (List.getElem?_eq_some.mp hi).1, hi]
  · rw [List.getElem?_set_ne hj]

theorem cstep_agent_other (s : CondState) (i j : Nat) (x : CondAction) (h : j ≠ i) :
    (s.step j x).agents[i]? = s.agents[i]? := by
  cases hj : s.agents[j]? with
  | none => rw [cstep_eq_none s j x hj]
  | some w =>
    rw [cstep_eq s j x w hj]
    obtain ⟨pc, ctx, ret, lc⟩ := w
    cases x <;> simp only [CondState.act, CondState.enter] <;> (repeat' split) <;>
      first
        | rfl
        | exact List.getElem?_set_ne h

theorem agents_run (P : Waiter → Prop)
    (hstep : ∀ (s : CondState) (i : Nat) (w : Waiter) (x : CondAction),
      s.agents[i]? = some w → P w → ∀ v, (s.act i w x).agents[i]? = some v → P v)
    (sched : List (Nat × CondAction)) :
    ∀ s : CondState, (∀ (j : Nat) (w : Waiter), s.agents[j]? = some w → P w) →
      ∀ (j : Nat) (w : Waiter), (s.run sched).agents[j]? = some w → P w := by
  induction sched with
  | nil => intro s h; exact h
  | cons ev rest ih =>
    intro s h
    obtain ⟨i, x⟩ := ev
    show ∀ (j : Nat) (w : Waiter), ((s.step i x).run rest).agents[j]? = some w → P w
    apply ih
    intro j v hv
    by_cases hij : i = j
    · subst hij
      cases hi : s.agents[i]? with
      | none => rw [cstep_eq_none s i x hi] at hv; exact h i v hv
      | some w =>
        rw [cstep_eq s i x w hi] at hv
        exact hstep s i w x hi (h i w hi) v hv
    · rw [cstep_agent_other s j i x hij] at hv
      exact h j v hv

theorem act_callsOk (s : CondState) (i : Nat) (w : Waiter) (x : CondAction)
    (hi : s.agents[i]? = some w) (hw : w.callsOk) :
    ∀ v, (s.act i w x).agents[i]? = some v → v.callsOk := by
  intro v hv
  have hlt := (List.getElem?_eq_some.mp hi).1
  obtain ⟨pc, ctx, ret, lc⟩ := w
  cases x <;> cases pc <;> simp only [CondState.act, CondState.enter] at hv <;>
    (repeat' split at hv) <;>
    simp only [List.getElem?_set_eq_of_lt _ hlt, hi, Option.some.injEq] at hv <;>
    subst hv <;> simp_all [Waiter.callsOk]

theorem act_return (s : CondState) (i : Nat) (w : Waiter) (x : CondAction)
    (hi : s.agents[i]? = some w) (hw : w.callsOk) (v : Waiter)
    (hv : (s.act i w x).agents[i]? = some v) :
    (w.pc ≠ WaitPC.out → v.pc = WaitPC.out →
      (∃ ch r, w.pc = WaitPC.waitRelock ch r ∧ v.ret = some r) ∧ x = CondAction.step ∧
      s.holder = none ∧ (s.act i w x).holder = some i ∧
      w.lcalls = [LCall.unlock] ∧ v.lcalls = [LCall.unlock, LCall.lock]) ∧
    (∀ ctx e, w.pc = WaitPC.out → x = CondAction.waitWithContext ctx → s.holder = some i →
      ctx.Err = some e →
      v.pc = WaitPC.out ∧ v.ret = some (some e) ∧ v.lcalls = [] ∧
      (s.act i w x).holder = some i) ∧
    (w.pc ≠ WaitPC.out → w.pc ≠ WaitPC.probing → w.lcalls = [LCall.unlock]) := by
  have hlt := (List.getElem?_eq_some.mp hi).1
  obtain ⟨pc, ctx, ret, lc⟩ := w
  cases x <;> cases pc <;> simp only [CondState.act, CondState.enter] at hv ⊢ <;>
    (repeat' split at hv) <;>
    simp only [List.getElem?_set_eq_of_lt _ hlt, hi, Option.some.injEq] at hv <;>
    subst hv <;> simp_all [Waiter.callsOk]
  all_goals (intro c e h1 h2; subst h1; simp_all)

theorem crun_append (xs ys : List (Nat × CondAction)) :
    ∀ s : CondState, s.run (xs ++ ys) = (s.run xs).run ys := by
  induction xs with
  | nil => intro s; rfl
  | cons ev rest ih =>
    intro s
    obtain ⟨i, x⟩ := ev
    show (s.step i x).run (rest ++ ys) = _
    rw [ih]
    rfl

theorem delivered_append (xs ys : List (Nat × CondAction)) (r : Nat) :
    ∀ s : CondState, s.delivered (xs ++ ys) r =
      (s.delivered xs r || (s.run xs).delivered ys r) := by
  induction xs with
  | nil => intro s; simp [CondState.delivered, CondState.run]
  | cons ev rest ih =>
    intro s
    obtain ⟨i, x⟩ := ev
    show (_ || (s.step i x).delivered (rest ++ ys) r) = _
    rw [ih]
    simp only [CondState.delivered, CondState.run, Bool.or_assoc]

theorem tokens_append_make (h : Heap) (r : Nat) :
    Heap.tokens (h ++ [Chan.make 1]) r = h.tokens r := by
  unfold Heap.tokens
  rcases Nat.lt_trichotomy r h.length with hr | hr | hr
  · rw [List.getElem?_append_left hr]
  · subst hr
    simp [Chan.make]
  · have h1 : h[r]? = none := List.getElem?_eq_none (by omega)
    have h2 : (h ++ [Chan.make 1])[r]? = none :=
      List.getElem?_eq_none (by simp only [List.length_append, List.length_singleton]; omega)
    rw [h1, h2]

theorem tryRecv_some (h h1 : Heap) (ch : Nat) (hr : h.tryRecv ch = some h1) :
    ∃ c0, h[ch]? = some c0 ∧ 0 < c0.len ∧ h1 = h.set ch ⟨c0.cap, c0.len - 1⟩ := by
  unfold Heap.tryRecv at hr
  cases hc : h[ch]? with
  | none => rw [hc] at hr; cases hr
  | some c0 =>
    rw [hc] at hr
    by_cases hpos : 0 < c0.len
    · simp only [Chan.tryRecv, hpos, if_true, Option.some.injEq] at hr
      exact ⟨c0, rfl, hpos, hr.symm⟩
    · simp [Chan.tryRecv, hpos] at hr

theorem tokens_tryRecv (h h1 : Heap) (ch r : Nat) (hr : h.tryRecv ch = some h1) :
    h1.tokens r ≤ h.tokens r ∧ h1.tokens ch + 1 = h.tokens ch := by
  obtain ⟨c0, hc, hpos, rfl⟩ := tryRecv_some h h1 ch hr
  have hlt : ch < h.length := (List.getElem?_eq_some.mp hc).1
  constructor
  · by_cases hq : r = ch
    · subst hq
      simp only [Heap.tokens, List.getElem?_set_eq_of_lt _ hlt, hc]
      omega
    · simp only [Heap.tokens, List.getElem?_set_ne (fun q => hq q.symm)]
      exact Nat.le_refl _
  · simp only [Heap.tokens, List.getElem?_set_eq_of_lt _ hlt, hc]
    omega

theorem enrol_some (h : Heap) (c : Cond) (h1 : Heap) (c1 : Cond) (ch : Nat)
    (he : Cond.enrol h c = some (h1, c1, ch)) :
    ∃ id, Cond.probe c.channelWaits (2 ^ 64) c.nextID = some id ∧
      h1 = h ++ [Chan.make 1] ∧ c1 = ⟨id, Waits.insert c.channelWaits id h.length⟩ ∧
      ch = h.length := by
  unfold Cond.enrol at he
  cases hp : Cond.probe c.channelWaits (2 ^ 64) c.nextID with
  | none => rw [hp] at he; cases he
  | some id =>
    rw [hp] at he
    cases he
    exact ⟨id, rfl, rfl, rfl, rfl⟩

theorem act_tokens (s : CondState) (i : Nat) (w : Waiter) (x : CondAction) (r : Nat)
    (hx : x.delivers = false) : (s.act i w x).heap.tokens r ≤ s.heap.tokens r := by
  obtain ⟨pc, ctx, ret, lc⟩ := w
  cases x <;> cases pc <;> simp only [CondState.act, CondState.enter] <;>
    (repeat' split) <;> first
      | exact Nat.le_refl _
      | (rename_i hq; exact (tokens_tryRecv _ _ _ r hq).1)
      | (rename_i hq; obtain ⟨id, -, rfl, -, -⟩ := enrol_some _ _ _ _ _ hq
         exact Nat.le_of_eq (tokens_append_make _ r))
      | (cases hx)

theorem step_tokens (s : CondState) (j : Nat) (x : CondAction) (r : Nat)
    (hx : x.delivers = false) : (s.step j x).heap.tokens r ≤ s.heap.tokens r := by
  cases hj : s.agents[j]? with
  | none => rw [cstep_eq_none s j x hj]
  | some w => rw [cstep_eq s j x w hj]; exact act_tokens s j w x r hx

theorem tokens_delivered (sched : List (Nat × CondAction)) (r : Nat) :
    ∀ s : CondState, s.heap.tokens r < (s.run sched).heap.tokens r →
      s.delivered sched r = true := by
  induction sched with
  | nil => intro s h; exact absurd h (Nat.lt_irrefl _)
  | cons ev rest ih =>
    intro s h
    obtain ⟨j, x⟩ := ev
    have h2 : s.heap.tokens r < ((s.step j x).run rest).heap.tokens r := h
    simp only [CondState.delivered, Bool.or_eq_true, Bool.and_eq_true, decide_eq_true_eq]
    by_cases hlt : (s.step j x).heap.tokens r < ((s.step j x).run rest).heap.tokens r
    · exact Or.inr (ih _ hlt)
    · left
      have hup : s.heap.tokens r < (s.step j x).heap.tokens r := by omega
      refine ⟨?_, hup⟩
      cases hd : x.delivers with
      | true => rfl
      | false =>
        have := step_tokens s j x r hd
        omega

theorem act_consume (s : CondState) (i : Nat) (w : Waiter) (x : CondAction)
    (hi : s.agents[i]? = some w) (v : Waiter) (hv : (s.act i w x).agents[i]? = some v)
    (ch : Nat) (h1 : v.pc = WaitPC.waitRelock ch none) (h2 : w.pc ≠ WaitPC.waitRelock ch none) :
    x = CondAction.step ∧ (w.pc = WaitPC.waitTry ch ∨ w.pc = WaitPC.waitRace ch) ∧
    (s.act i w x).heap.tokens ch + 1 = s.heap.tokens ch := by
  have hlt := (List.getElem?_eq_some.mp hi).1
  obtain ⟨pc, ctx, ret, lc⟩ := w
  cases x <;> cases pc <;> simp only [CondState.act, CondState.enter] at hv ⊢ <;>
    (repeat' split at hv) <;>
    simp only [List.getElem?_set_eq_of_lt _ hlt, hi, Option.some.injEq] at hv <;>
    subst hv <;> simp_all
  all_goals
    rename_i hq
    exact (tokens_tryRecv _ _ _ ch hq).2

theorem relock_delivered (n : Nat) (sched : List (Nat × CondAction)) :
    ∀ (i : Nat) (a : Waiter) (ch : Nat),
      ((CondState.start n).run sched).agents[i]? = some a →
      a.pc = WaitPC.waitRelock ch none →
      (CondState.start n).delivered sched ch = true := by
  induction sched using List.reverseRecOn with
  | nil =>
    intro i a ch ha hpc
    simp [CondState.run, CondState.start, List.getElem?_replicate] at ha
    obtain ⟨-, rfl⟩ := ha
    cases hpc
  | append_singleton pre ev ih =>
    intro i a ch ha hpc
    obtain ⟨j, x⟩ := ev
    rw [crun_append] at ha
    rw [delivered_append, Bool.or_eq_true]
    left
    have ha2 : (((CondState.start n).run pre).step j x).agents[i]? = some a := ha
    by_cases hij : j = i
    · subst hij
      cases hw : ((CondState.start n).run pre).agents[j]? with
      | none =>
        rw [cstep_eq_none _ j x hw, hw] at ha2
        cases ha2
      | some w =>
        by_cases hwpc : w.pc = WaitPC.waitRelock ch none
        · exact ih j w ch hw hwpc
        · rw [cstep_eq _ j x w hw] at ha2
          have := (act_consume _ j w x hw a ha2 ch hpc hwpc).2.2
          apply tokens_delivered pre ch (CondState.start n)
          have h0 : (CondState.start n).heap.tokens ch = 0 := rfl
          omega
    · rw [cstep_agent_other _ i j x hij] at ha2
      exact ih i a ch ha2 hpc

theorem act_cancelOk (s : CondState) (i : Nat) (w : Waiter) (x : CondAction)
    (hi : s.agents[i]? = some w) (hw : w.cancelOk) :
    ∀ v, (s.act i w x).agents[i]? = some v → v.cancelOk := by
  intro v hv
  have hlt := (List.getElem?_eq_some.mp hi).1
  obtain ⟨pc, ⟨err, canc⟩, ret, lc⟩ := w
  cases x <;> cases pc <;> simp only [CondState.act, CondState.enter] at hv <;>
    (repeat' split at hv) <;>
    simp only [List.getElem?_set_eq_of_lt _ hlt, hi, Option.some.injEq] at hv <;>
    subst hv <;> cases err <;> cases canc <;>
    simp_all [Waiter.cancelOk, Context.Err, Context.trigger]

theorem act_todo (s : CondState) (i : Nat) (w : Waiter) (x : CondAction)
    (hi : s.agents[i]? = some w) (v : Waiter) (hv : (s.act i w x).agents[i]? = some v) :
    (w.ctx = Context.todo → w.pc ≠ WaitPC.out → v.ctx = Context.todo) ∧
    (x = CondAction.wait → w.pc = WaitPC.out → s.holder = some i → v.ctx = Context.todo) := by
  have hlt := (List.getElem?_eq_some.mp hi).1
  obtain ⟨pc, ctx, ret, lc⟩ := w
  cases x <;> cases pc <;> simp only [CondState.act, CondState.enter] at hv ⊢ <;>
    (repeat' split at hv) <;>
    simp only [List.getElem?_set_eq_of_lt _ hlt, hi, Option.some.injEq] at hv <;>
    subst hv <;> simp_all [CondAction.wait, Context.trigger, Context.todo]

theorem probe_reaches (next id : Nat) (hid : id < 2 ^ 64) :
    ∃ j, j < 2 ^ 64 ∧ (next + 1 + j) % 2 ^ 64 = id := by
  refine ⟨(id + 2 ^ 64 - (next + 1) % 2 ^ 64) % 2 ^ 64, Nat.mod_lt _ (by positivity), ?_⟩
  norm_num at hid ⊢
  omega

theorem probe_first (t : Waits) :
    ∀ (fuel next id : Nat), Cond.probe t fuel next = some id →
      ∃ j, j < fuel ∧ id = (next + 1 + j) % 2 ^ 64 ∧
        ∀ j1, j1 < j → (next + 1 + j1) % 2 ^ 64 ∈ Waits.keys t := by
  intro fuel
  induction fuel with
  | zero => intro next id hp; simp [Cond.probe] at hp
  | succ fuel ih =>
    intro next id hp
    unfold Cond.probe at hp
    split at hp
    · cases hp
      exact ⟨0, by omega, rfl, fun j1 hj1 => absurd hj1 (Nat.not_lt_zero _)⟩
    · rename_i hl
      obtain ⟨j, hj, hid, hbefore⟩ := ih _ id hp
      refine ⟨j + 1, by omega, ?_, ?_⟩
      · rw [hid, Nat.add_assoc, Nat.mod_add_mod]
        congr 1
        omega
      · intro j1 hj1
        cases j1 with
        | zero =>
          by_contra hm
          exact hl (by rw [(lookup_none_iff t _).mpr hm]; rfl)
        | succ j1 =>
          have := hbefore j1 (by omega)
          rw [Nat.add_assoc, Nat.mod_add_mod] at this
          have e : next + 1 + (j1 + 1) = next + 1 + (1 + j1) := by omega
          rw [e]
          exact this

theorem probe_terminates_free (t : Waits) (next : Nat)
    (hfree : ∃ id, id < 2 ^ 64 ∧ Waits.lookup t id = none) :
    ∃ id, Cond.probe t (2 ^ 64) next = some id := by
  cases hp : Cond.probe t (2 ^ 64) next with
  | some id => exact ⟨id, rfl⟩
  | none =>
    exfalso
    obtain ⟨id, hid, hl⟩ := hfree
    obtain ⟨j, hj, he⟩ := probe_reaches next id hid
    have := probe_none t (2 ^ 64) next hp j hj
    rw [he] at this
    exact (lookup_none_iff t id).mp hl this

theorem delete_absent (t : Waits) (id : Nat) (hl : Waits.lookup t id = none) :
    Waits.delete t id = t := by
  apply List.filter_eq_self.mpr
  intro e he
  simp only [ne_eq, decide_eq_true_eq]
  intro q
  exact (lookup_none_iff t id).mp hl (List.mem_map.mpr ⟨e, he, q⟩)

theorem state_run (P : CondState → Prop)
    (hstep : ∀ (s : CondState) (i : Nat) (w : Waiter) (x : CondAction),
      s.agents[i]? = some w → P s → P (s.act i w x))
    (sched : List (Nat × CondAction)) :
    ∀ s : CondState, P s → P (s.run sched) := by
  induction sched with
  | nil => intro s h; exact h
  | cons ev rest ih =>
    intro s h
    obtain ⟨i, x⟩ := ev
    show P ((s.step i x).run rest)
    apply ih
    cases hi : s.agents[i]? with
    | none => rw [cstep_eq_none s i x hi]; exact h
    | some w => rw [cstep_eq s i x w hi]; exact hstep s i w x hi h

theorem tableOk_ready (h : Heap) (c : Cond) (hok : Cond.tableOk h c) :
    ∀ e ∈ c.channelWaits, h.ready e.2 = true := by
  intro e he
  exact (ready_iff h e.2).mpr ⟨⟨1, 0⟩, hok.2.2 e he, by decide⟩

theorem tableOk_enrol (h : Heap) (c : Cond) (h1 : Heap) (c1 : Cond) (ch : Nat)
    (hok : Cond.tableOk h c) (he : Cond.enrol h c = some (h1, c1, ch)) :
    Cond.tableOk h1 c1 := by
  obtain ⟨id, hp, rfl, rfl, rfl⟩ := enrol_some h c h1 c1 ch he
  obtain ⟨hl, -⟩ := probe_spec _ _ _ _ hp
  obtain ⟨hk, hr, hc⟩ := hok
  have hnk : id ∉ Waits.keys c.channelWaits := (lookup_none_iff _ id).mp hl
  have hlt : ∀ e ∈ c.channelWaits, e.2 < h.length :=
    fun e he => (List.getElem?_eq_some.mp (hc e he)).1
  simp only [Cond.tableOk, Waits.insert, delete_absent _ id hl]
  refine ⟨List.nodup_cons.mpr ⟨hnk, hk⟩, List.nodup_cons.mpr ⟨?_, hr⟩, ?_⟩
  · intro hm
    obtain ⟨e, he, hq⟩ := List.mem_map.mp hm
    have := hlt e he
    omega
  · intro e he
    rcases List.mem_cons.mp he with q | q
    · subst q
      simp [Chan.make]
    · rw [List.getElem?_append_left (hlt e q)]
      exact hc e q

theorem tableOk_recv (h : Heap) (c : Cond) (h1 : Heap) (ch : Nat)
    (hok : Cond.tableOk h c) (hr : h.tryRecv ch = some h1) : Cond.tableOk h1 c := by
  obtain ⟨c0, hc0, hpos, rfl⟩ := tryRecv_some h h1 ch hr
  refine ⟨hok.1, hok.2.1, ?_⟩
  intro e he
  have := hok.2.2 e he
  by_cases hq : e.2 = ch
  · rw [hq, hc0] at this
    cases this
    exact absurd hpos (by decide)
  · rw [getElem?_set_other h ch e.2 _ hq]
    exact this

theorem tableOk_signal (h : Heap) (c : Cond) (order : List Nat)
    (hok : Cond.tableOk h c) (ho : order.Perm (Waits.keys c.channelWaits)) :
    Cond.tableOk (Cond.Signal h c order).1 (Cond.Signal h c order).2 ∧
    (c.channelWaits ≠ [] →
      ∃ k r, (k, r) ∈ c.channelWaits ∧
        Cond.Signal h c order = (h.set r ⟨1, 1⟩, ⟨c.nextID, Waits.delete c.channelWaits k⟩) ∧
        (Waits.delete c.channelWaits k).length + 1 = c.channelWaits.length) := by
  cases ht : c.channelWaits with
  | nil =>
    have : Cond.Signal h c order = (h, c) :=
      signal_none h c order (fun k _ r hl => by
        have := mem_of_lookup _ k r hl
        rw [ht] at this
        cases this)
    rw [this]
    refine ⟨?_, fun hne => absurd rfl hne⟩
    have := hok
    simp only [Cond.tableOk, ht] at this ⊢
    exact this
  | cons e0 t0 =>
    rw [← ht]
    have hne : ∃ e ∈ c.channelWaits, h.ready e.2 = true :=
      ⟨e0, by rw [ht]; exact List.mem_cons_self _ _,
        tableOk_ready h c hok e0 (by rw [ht]; exact List.mem_cons_self _ _)⟩
    obtain ⟨k, -, r, ch, hlk, hch, hlt, hsig⟩ :=
      signal_some h c order (exists_ready_key h c order hok.1 ho hne)
    have hmem := mem_of_lookup _ k r hlk
    have hch2 := hok.2.2 (k, r) hmem
    rw [hch] at hch2
    cases hch2
    have hdel := mem_delete_iff_ne c.channelWaits k r hok.1 hmem
    rw [hsig]
    refine ⟨⟨keys_delete_nodup _ k hok.1, refs_delete_nodup _ k hok.2.1, ?_⟩, ?_⟩
    · intro e he
      obtain ⟨h1, h2⟩ := (hdel e).mp he
      have hne2 : e.2 ≠ r := fun q => h2 (List.inj_on_of_nodup_map hok.2.1 h1 hmem q)
      show (h.set r _)[e.2]? = _
      rw [getElem?_set_other h r e.2 _ hne2]
      exact hok.2.2 e h1
    · intro _
      exact ⟨k, r, hmem, rfl,
        length_delete _ k hok.1 (List.mem_map.mpr ⟨(k, r), hmem, rfl⟩)⟩

theorem tableOk_broadcast (h : Heap) (c : Cond) (order : List Nat)
    (hok : Cond.tableOk h c) (ho : order.Perm (Waits.keys c.channelWaits)) :
    (Cond.Broadcast h c order).2.channelWaits = [] ∧
    (∀ e ∈ c.channelWaits, (Cond.Broadcast h c order).1[e.2]? = some ⟨1, 1⟩) ∧
    Cond.tableOk (Cond.Broadcast h c order).1 (Cond.Broadcast h c order).2 := by
  obtain ⟨hnd, hmem⟩ := order_refs c order hok.1 hok.2.1 ho
  obtain ⟨b1, -, b3⟩ := bsends_spec c order h [] hnd
  have hB : Cond.Broadcast h c order =
      ((Cond.broadcastSends c h [] order).1,
        ⟨c.nextID, Waits.deleteAll c.channelWaits (Cond.broadcastSends c h [] order).2⟩) := rfl
  have hempty : Waits.deleteAll c.channelWaits (Cond.broadcastSends c h [] order).2 = [] := by
    apply List.eq_nil_iff_forall_not_mem.mpr
    intro e he
    obtain ⟨h1, h2⟩ := (mem_deleteAll _ _ e).mp he
    apply h2
    rw [b3 e.1]
    exact Or.inr ⟨ho.mem_iff.mpr (List.mem_map.mpr ⟨e, h1, rfl⟩), e.2,
      (lookup_some_iff _ e.1 e.2 hok.1).mpr h1, tableOk_ready h c hok e h1⟩
  rw [hB]
  refine ⟨hempty, ?_, ?_⟩
  · intro e he
    exact b1 e.2 ((hmem e.2).mpr (List.mem_map.mpr ⟨e, he, rfl⟩)) ⟨1, 0⟩ (hok.2.2 e he)
      (by decide)
  · simp only [Cond.tableOk, hempty]
    exact ⟨List.nodup_nil, List.nodup_nil, fun e he => by cases he⟩

theorem act_tableOk (s : CondState) (i : Nat) (w : Waiter) (x : CondAction)
    (hok : Cond.tableOk s.heap s.cond) :
    Cond.tableOk (s.act i w x).heap (s.act i w x).cond := by
  obtain ⟨pc, ctx, ret, lc⟩ := w
  cases x <;> cases pc <;> simp only [CondState.act, CondState.enter] <;>
    (repeat' split) <;> first
      | exact hok
      | (rename_i hq; exact tableOk_recv _ _ _ _ hok hq)
      | (rename_i hq; exact tableOk_enrol _ _ _ _ _ hok hq)
      | (rename_i hq; exact (tableOk_signal _ _ _ hok hq.2.2).1)
      | (rename_i hq; exact (tableOk_broadcast _ _ _ hok hq.2.2).2.2)

/-! ## Mutex: the claims -/

/-- C1. Mutual exclusion of `Mutex`: in every state reached from `n` fresh
agents and a zero-value mutex by a schedule in which every `Unlock` is called
by an agent from its critical section, at most one agent is between its
acquire and its release, the number of such agents is the number of tokens in
the slot, no agent has panicked, and the shared counter is the number of
completed `counter++`; so when each of the `n` agents has completed `M` of
them the counter is `n * M`. Such a state is reached for every `M`: some
schedule of that kind ends with every agent outside its calls after `M`
cycles, the counter being `n * M`. -/
theorem mutex_mutual_exclusion (n : Nat) (sched : List (Nat × Action))
    (hd : (State.start n).disciplined sched = true) :
    ((State.start n).run sched).agents.countP Agent.owns ≤ 1 ∧
    ((State.start n).run sched).agents.countP Agent.owns = ((State.start n).run sched).m.tokens ∧
    (∀ a ∈ ((State.start n).run sched).agents, a.pc ≠ PC.panicked) ∧
    ((State.start n).run sched).counter = (((State.start n).run sched).agents.map Agent.incs).sum ∧
    (∀ M : Nat, (∀ a ∈ ((State.start n).run sched).agents, a.incs = M) →
      ((State.start n).run sched).counter = n * M) ∧
    (∀ M : Nat, ∃ full : List (Nat × Action), (State.start n).disciplined full = true ∧
      (∀ a ∈ ((State.start n).run full).agents, a.pc = PC.idle ∧ a.incs = M) ∧
      ((State.start n).run full).counter = n * M) := by
  have h := inv_run sched (State.start n) (inv_start n) hd
  refine ⟨?_, ?_, ?_, h.cnt.symm, counter_of_done n sched hd, ?_⟩
  · rw [countP_owns, h.own]; exact wf_tokens_le _ h.wf
  · rw [countP_owns, h.own]
  · intro a ha
    obtain ⟨i, hi, rfl⟩ := List.getElem_of_mem ha
    exact (h.ok i _ (List.getElem?_eq_getElem hi)).1
  · intro M
    obtain ⟨h1, h2⟩ := allRounds_done n M
    exact ⟨allRounds n M, h1, h2, counter_of_done n _ h1 M (fun a ha => (h2 a ha).2)⟩

theorem mutex_mutual_exclusion_witness :
    (State.start 3).disciplined contended = true ∧
    ((State.start 3).run contended).agents.countP Agent.owns ≤ 1 ∧
    (∀ a ∈ ((State.start 3).run contended).agents, a.incs = 2) ∧
    ((State.start 3).run contended).counter = 3 * 2 ∧
    (∃ full : List (Nat × Action), (State.start 3).disciplined full = true ∧
      (∀ a ∈ ((State.start 3).run full).agents, a.pc = PC.idle ∧ a.incs = 10000) ∧
      ((State.start 3).run full).counter = 3 * 10000) :=
  ⟨by decide, (mutex_mutual_exclusion 3 contended (by decide)).1, by decide,
    (mutex_mutual_exclusion 3 contended (by decide)).2.2.2.2.1 2 (by decide),
    (mutex_mutual_exclusion 3 contended (by decide)).2.2.2.2.2 10000⟩

/-- C2. `Unlock` on a well-formed mutex panics exactly when the mutex is Free
on entry, in particular on the zero value; on a Held mutex it returns (the
function is total: it never suspends) and leaves the mutex Free. An agent of
the machine calling `Unlock` alone does the same: it ends panicked on a Free
mutex, and back outside the call with the mutex Free on a Held one. -/
theorem unlock_panics_iff_free (m : Mutex) (hm : m.wf) :
    (m.Unlock = Except.error unlockPanic ↔ m.held = false) ∧
    Mutex.zero.Unlock = Except.error unlockPanic ∧
    (m.held = true → ∃ m1, m.Unlock = Except.ok m1 ∧ m1.held = false ∧ m1.wf) ∧
    (∀ (n : Nat) (a : Agent), a.pc = PC.idle ∨ a.pc = PC.critical →
      (m.held = false →
        (acts m n a [Action.callUnlock, Action.step]).2.2.pc = PC.panicked ∧
        (acts m n a [Action.callUnlock, Action.step]).1.held = false) ∧
      (m.held = true →
        (acts m n a [Action.callUnlock, Action.step]).2.2.pc = PC.idle ∧
        m.Unlock = Except.ok (acts m n a [Action.callUnlock, Action.step]).1)) := by
  refine ⟨?_, rfl, ?_, ?_⟩
  · rcases hm with h | h | h <;> subst h <;>
      simp [Mutex.Unlock, Mutex.held, Mutex.tokens, Mutex.zero, Mutex.onceDo, Mutex.init,
        Mutex.recv, Chan.make, Chan.tryRecv]
  · rcases hm with h | h | h <;> subst h <;> simp [Mutex.held, Mutex.tokens, Mutex.zero]
    exact ⟨_, rfl, by decide, by decide⟩
  · intro n a ha
    obtain ⟨pc, ctx, ret, sends, incs⟩ := a
    simp only at ha
    rcases ha with ha | ha <;> subst ha <;> rcases hm with h | h | h <;> subst h <;>
      simp [acts, act, Mutex.held, Mutex.tokens, Mutex.zero, Mutex.onceDo, Mutex.init, Mutex.recv,
        Chan.make, Chan.tryRecv, Mutex.Unlock]

theorem unlock_panics_iff_free_witness :
    (Mutex.Unlock ⟨some ⟨1, 1⟩, true⟩ = Except.error unlockPanic ↔
      Mutex.held ⟨some ⟨1, 1⟩, true⟩ = false) ∧
    (Mutex.held ⟨some ⟨1, 1⟩, true⟩ = true →
      ∃ m1, Mutex.Unlock ⟨some ⟨1, 1⟩, true⟩ = Except.ok m1 ∧ m1.held = false ∧ m1.wf) :=
  ⟨(unlock_panics_iff_free ⟨some ⟨1, 1⟩, true⟩ (by decide)).1,
   (unlock_panics_iff_free ⟨some ⟨1, 1⟩, true⟩ (by decide)).2.2.1⟩

/-- C3. `LockWithContext` with a token already triggered on entry: entering the
call leaves the number of tokens in the slot (Free or Held) as it was; whatever
other agents do before the agent reaches the check, and whatever further
triggers hit its token, the check step leaves the mutex untouched and returns
the token's cause, no token having been placed by the call. In particular on a
Free mutex, when the agent runs alone, the mutex is Free after the call and a
following `Unlock` panics. -/
theorem lockWithContext_triggered_on_entry (s : State) (i : Nat) (a : Agent) (ctx : Context)
    (e : Cause) (mid : List (Nat × Action))
    (hwf : s.m.wf) (ha : s.agents[i]? = some a) (hidle : a.pc = PC.idle)
    (ht : ctx.Err = some e)
    (hmid : ∀ ev ∈ mid, ev.1 ≠ i ∨ ∃ c, ev.2 = Action.trigger c) :
    (s.step i (Action.callLockWithContext ctx)).m.held = s.m.held ∧
    (s.step i (Action.callLockWithContext ctx)).m.tokens = s.m.tokens ∧
    (((s.step i (Action.callLockWithContext ctx)).run mid).step i Action.step).m =
      ((s.step i (Action.callLockWithContext ctx)).run mid).m ∧
    (∃ b, (((s.step i (Action.callLockWithContext ctx)).run mid).step i Action.step).agents[i]?
        = some b ∧ b.pc = PC.idle ∧ b.ret = some (some e) ∧ b.sends = 0) ∧
    (s.m.held = false →
      (s.run [(i, Action.callLockWithContext ctx), (i, Action.step)]).m.held = false ∧
      ∃ b, (s.run [(i, Action.callLockWithContext ctx), (i, Action.step),
              (i, Action.callUnlock), (i, Action.step)]).agents[i]? = some b ∧
        b.pc = PC.panicked) := by
  obtain ⟨pc, actx, ret, sends, incs⟩ := a
  simp only at hidle
  subst hidle
  obtain ⟨cerr, ccan⟩ := ctx
  simp only [Context.Err] at ht
  subst ht
  obtain ⟨c1, c2, c3⟩ := step_agent_self s i (Action.callLockWithContext ⟨some e, ccan⟩) _ ha
  have hb : (act s.m s.counter ⟨PC.idle, actx, ret, sends, incs⟩
      (Action.callLockWithContext ⟨some e, ccan⟩)).2.2 =
      ⟨PC.lwcCheck, ⟨some e, ccan⟩, none, 0, incs⟩ := rfl
  rw [hb] at c3
  have hq := run_quiet_triggered i e mid _ _ c3 rfl hmid
  obtain ⟨d1, d2, d3⟩ := step_agent_self _ i Action.step _ hq
  have htok : (s.step i (Action.callLockWithContext ⟨some e, ccan⟩)).m.tokens = s.m.tokens := by
    rw [c1]
    rcases hwf with h | h | h <;> rw [h] <;> rfl
  refine ⟨?_, htok, ?_, ?_, ?_⟩
  · simp only [Mutex.held, htok]
  · rw [d1]; rfl
  · exact ⟨_, d3, rfl, rfl, rfl⟩
  · intro hfree
    have r1 := run_alone i [Action.callLockWithContext ⟨some e, ccan⟩, Action.step] s _ ha
    have r2 := run_alone i [Action.callLockWithContext ⟨some e, ccan⟩, Action.step,
      Action.callUnlock, Action.step] s _ ha
    constructor
    · have r1m : (s.run [(i, Action.callLockWithContext ⟨some e, ccan⟩), (i, Action.step)]).m
          = _ := r1.1
      rw [r1m]
      rcases hwf with h | h | h <;> rw [h] at hfree ⊢ <;> first | rfl | exact absurd hfree (by decide)
    · refine ⟨_, r2.2.2, ?_⟩
      rcases hwf with h | h | h <;> rw [h] at hfree ⊢ <;> first | rfl | exact absurd hfree (by decide)

theorem lockWithContext_triggered_on_entry_witness :
    ∃ b, (((heldByFirst.step 1 (Action.callLockWithContext Context.canceled)).run
        [(0, Action.step), (1, Action.trigger Cause.deadlineExceeded)]).step 1 Action.step).agents[1]?
        = some b ∧ b.pc = PC.idle ∧ b.ret = some (some Cause.canceled) ∧ b.sends = 0 :=
  (lockWithContext_triggered_on_entry heldByFirst 1 Agent.fresh Context.canceled Cause.canceled
    [(0, Action.step), (1, Action.trigger Cause.deadlineExceeded)]
    (by decide) (by decide) rfl rfl
    (by
      intro ev hev
      simp only [List.mem_cons, List.mem_singleton, List.not_mem_nil, or_false] at hev
      rcases hev with rfl | rfl
      · exact Or.inl (by decide)
      · exact Or.inr ⟨_, rfl⟩)).2.2.2.1

/-- C4. Release integrity of `LockWithContext`. In every state `s` reached
from the start by any schedule, consider a step of an agent that is inside
`LockWithContext`, giving agent state `b`. If the call thereby returns an error
`e`, then `e` is the token's cause, the step left the mutex as it was and the
call placed no token in the slot. If it returns nil, the mutex was Free, this
step made it Held by adding one token, and that is the only token the call
placed. Otherwise the call goes on, having placed nothing. The field `sends`
counts exactly the tokens the agent's steps add to the slot, and in the racing
wait the send on a Free mutex returns nil whether or not the token has been
triggered. -/
theorem lockWithContext_release_integrity (n : Nat) (sched : List (Nat × Action)) (i : Nat)
    (x : Action) (a b : Agent)
    (ha : ((State.start n).run sched).agents[i]? = some a)
    (hb : (((State.start n).run sched).step i x).agents[i]? = some b)
    (hin : a.pc.inLockWithContext = true) :
    (∀ e, b.ret = some (some e) →
      a.ctx.Err = some e ∧ b.pc = PC.idle ∧
      (((State.start n).run sched).step i x).m = ((State.start n).run sched).m ∧ b.sends = 0) ∧
    (b.ret = some none →
      b.pc = PC.critical ∧ ((State.start n).run sched).m.held = false ∧
      (((State.start n).run sched).step i x).m.held = true ∧
      (((State.start n).run sched).step i x).m.tokens = ((State.start n).run sched).m.tokens + 1 ∧
      b.sends = 1) ∧
    (b.ret = none →
      b.pc.inLockWithContext = true ∧
      (((State.start n).run sched).step i x).m = ((State.start n).run sched).m ∧ b.sends = 0) ∧
    (((State.start n).run sched).step i x).m.tokens + a.sends =
      ((State.start n).run sched).m.tokens + b.sends ∧
    (a.pc = PC.lwcRace → ((State.start n).run sched).m.held = false → x = Action.step →
      b.ret = some none) := by
  have hc := clean_run sched (State.start n) (Or.inl rfl) (by
    intro j c hj
    simp [State.start, List.getElem?_replicate] at hj
    obtain ⟨-, rfl⟩ := hj
    intro h
    exact absurd h (by decide))
  obtain ⟨hret, hs⟩ := hc.2 i a ha hin
  have ho := once_run sched (State.start n) (by
    intro j c hj hne
    simp [State.start, List.getElem?_replicate] at hj
    obtain ⟨-, rfl⟩ := hj
    exact absurd rfl hne) i a ha (by
      intro h
      rw [h] at hin
      exact absurd hin (by decide))
  obtain ⟨e1, _, e3⟩ := step_agent_self _ i x a ha
  rw [e3] at hb
  cases hb
  rw [e1]
  exact act_in_call _ _ a x hc.1 ho hin hret hs

theorem lockWithContext_release_integrity_witness :
    (∃ a, ((State.start 2).run lateTrigger).agents[1]? = some a ∧ a.pc = PC.lwcRace ∧
      a.ctx.Err = some Cause.canceled) ∧
    ∀ b, (((State.start 2).run lateTrigger).step 1 Action.step).agents[1]? = some b →
      b.ret = some none ∧ b.sends = 1 ∧
      (((State.start 2).run lateTrigger).step 1 Action.step).m.held = true := by
  refine ⟨⟨⟨PC.lwcRace, ⟨some Cause.canceled, true⟩, none, 0, 0⟩, by decide, rfl, rfl⟩, ?_⟩
  intro b hb
  have h := lockWithContext_release_integrity 2 lateTrigger 1 Action.step
    ⟨PC.lwcRace, ⟨some Cause.canceled, true⟩, none, 0, 0⟩ b (by decide) hb (by decide)
  have hret := h.2.2.2.2 (by decide) (by decide) rfl
  exact ⟨hret, (h.2.1 hret).2.2.2.2, (h.2.1 hret).2.2.1⟩

/-- C5. Uncontended acquisition: cancellation cannot preempt it. From a Free
mutex (the zero value included) and a token that is not triggered at the entry
check, `LockWithContext` reaches its first `select`. From there, let any
tokens be triggered and let the agent be offered any action other than the
send, the cancellation branch `<-ctx.Done()` included: the mutex stays Free and
the agent stays at the first `select`, the call having returned nothing and
placed nothing; in particular the cancellation branch changes nothing there.
The send of the first `select` then succeeds: the call returns nil, the mutex
is Held, and the call has placed one token. -/
theorem lockWithContext_uncontended (s : State) (i : Nat) (a : Agent) (ctx : Context)
    (mid : List (Nat × Action))
    (hwf : s.m.wf) (hfree : s.m.held = false) (ha : s.agents[i]? = some a)
    (hidle : a.pc = PC.idle) (ht : ctx.Err = none)
    (hmid : ∀ ev ∈ mid, (∃ c, ev.2 = Action.trigger c) ∨ (ev.1 = i ∧ ev.2 ≠ Action.step)) :
    ((s.run [(i, Action.callLockWithContext ctx), (i, Action.step)]).run mid).m.held = false ∧
    (∃ w, ((s.run [(i, Action.callLockWithContext ctx), (i, Action.step)]).run mid).agents[i]?
        = some w ∧ w.pc = PC.lwcTry ∧ w.ret = none ∧ w.sends = 0) ∧
    (((s.run [(i, Action.callLockWithContext ctx), (i, Action.step)]).run mid).step i
        Action.done).m =
      ((s.run [(i, Action.callLockWithContext ctx), (i, Action.step)]).run mid).m ∧
    (((s.run [(i, Action.callLockWithContext ctx), (i, Action.step)]).run mid).step i
        Action.done).agents[i]? =
      ((s.run [(i, Action.callLockWithContext ctx), (i, Action.step)]).run mid).agents[i]? ∧
    (((s.run [(i, Action.callLockWithContext ctx), (i, Action.step)]).run mid).step i
        Action.step).m.held = true ∧
    ∃ b, (((s.run [(i, Action.callLockWithContext ctx), (i, Action.step)]).run mid).step i
        Action.step).agents[i]? = some b ∧
      b.pc = PC.critical ∧ b.ret = some none ∧ b.sends = 1 := by
  obtain ⟨pc, actx, ret, sends, incs⟩ := a
  simp only at hidle
  subst hidle
  obtain ⟨cerr, ccan⟩ := ctx
  simp only [Context.Err] at ht
  subst ht
  obtain ⟨r1, -, r3⟩ :=
    run_alone i [Action.callLockWithContext ⟨none, ccan⟩, Action.step] s _ ha
  have r1m : (s.run [(i, Action.callLockWithContext ⟨none, ccan⟩), (i, Action.step)]).m = _ := r1
  have r3m : (s.run [(i, Action.callLockWithContext ⟨none, ccan⟩),
    (i, Action.step)]).agents[i]? = _ := r3
  have hb : (acts s.m s.counter ⟨PC.idle, actx, ret, sends, incs⟩
      [Action.callLockWithContext ⟨none, ccan⟩, Action.step]) =
      (s.m.onceDo, s.counter, ⟨PC.lwcTry, ⟨none, ccan⟩, none, 0, incs⟩) := rfl
  rw [hb] at r1m r3m
  obtain ⟨t1, ctx2, t2⟩ := run_at_try i mid _ _ r3m rfl hmid
  obtain ⟨d1, -, d3⟩ := step_agent_self _ i Action.step _ t2
  obtain ⟨g1, -, g3⟩ := step_agent_self _ i Action.done _ t2
  rw [d1, d3, g1, g3, t2, t1, r1m]
  rcases hwf with h | h | h <;> rw [h] at hfree ⊢
  · exact ⟨rfl, ⟨_, rfl, rfl, rfl, rfl⟩, rfl, rfl, rfl, _, rfl, rfl, rfl, rfl⟩
  · exact ⟨rfl, ⟨_, rfl, rfl, rfl, rfl⟩, rfl, rfl, rfl, _, rfl, rfl, rfl, rfl⟩
  · exact absurd hfree (by decide)

theorem lockWithContext_uncontended_witness :
    ((State.start 1).run [(0, Action.callLockWithContext Context.withCancel),
        (0, Action.step)]).run
        [(0, Action.trigger Cause.canceled), (0, Action.done), (0, Action.callUnlock)]
      = ⟨⟨some ⟨1, 0⟩, true⟩, 0, [⟨PC.lwcTry, Context.canceled, none, 0, 0⟩]⟩ ∧
    ((((State.start 1).run [(0, Action.callLockWithContext Context.withCancel),
        (0, Action.step)]).run
        [(0, Action.trigger Cause.canceled), (0, Action.done), (0, Action.callUnlock)]).step 0
        Action.step).m.held = true ∧
    (((State.start 1).run [(0, Action.callLockWithContext Context.withCancel),
        (0, Action.step)]).run
        [(0, Action.trigger Cause.canceled), (0, Action.done), (0, Action.callUnlock)]).step 0
        Action.step
      = ⟨⟨some ⟨1, 1⟩, true⟩, 0, [⟨PC.critical, Context.canceled, some none, 1, 0⟩]⟩ :=
  ⟨by decide,
   (lockWithContext_uncontended (State.start 1) 0 Agent.fresh Context.withCancel
    [(0, Action.trigger Cause.canceled), (0, Action.done), (0, Action.callUnlock)]
    (by decide) (by decide) (by decide) rfl rfl
    (by
      intro ev hev
      simp only [List.mem_cons, List.mem_singleton, List.not_mem_nil, or_false] at hev
      rcases hev with rfl | rfl | rfl
      · exact Or.inl ⟨_, rfl⟩
      · exact Or.inr ⟨rfl, by decide⟩
      · exact Or.inr ⟨rfl, by decide⟩)).2.2.2.2.1,
   by decide⟩

/-- C6. Lock/Unlock round trip: an agent outside every call, alone on a Free
mutex, runs any number of cycles, each `Lock()` or `LockWithContext` with an
untriggered token followed by `Unlock()`; every cycle ends outside the call
(no panic, no suspension), the mutex is Free again after the cycles, and a
following `Lock()` succeeds at its first step, leaving the mutex Held. -/
theorem lock_unlock_round_trip (s : State) (i : Nat) (a : Agent) (cs : List (Option Context))
    (hwf : s.m.wf) (hfree : s.m.held = false) (ha : s.agents[i]? = some a)
    (hidle : a.pc = PC.idle) (hcs : ∀ ctx, some ctx ∈ cs → ctx.Err = none) :
    (s.run ((cycles cs).map (fun x => (i, x)))).m.wf ∧
    (s.run ((cycles cs).map (fun x => (i, x)))).m.held = false ∧
    (∃ b, (s.run ((cycles cs).map (fun x => (i, x)))).agents[i]? = some b ∧ b.pc = PC.idle) ∧
    ((s.run ((cycles cs).map (fun x => (i, x)))).run
      [(i, Action.callLock), (i, Action.step)]).m.held = true ∧
    (∃ b, ((s.run ((cycles cs).map (fun x => (i, x)))).run
      [(i, Action.callLock), (i, Action.step)]).agents[i]? = some b ∧ b.pc = PC.critical) := by
  obtain ⟨r1, -, r3⟩ := run_alone i (cycles cs) s a ha
  obtain ⟨c1, c2, c3⟩ := acts_cycles cs s.m s.counter a hwf hfree hidle hcs
  rw [← r1] at c1 c2
  refine ⟨c1, c2, ⟨_, r3, c3⟩, ?_⟩
  obtain ⟨q1, -, q3⟩ := run_alone i [Action.callLock, Action.step] _ _ r3
  have q1m : ((s.run ((cycles cs).map (fun x => (i, x)))).run
      [(i, Action.callLock), (i, Action.step)]).m = _ := q1
  have q3m : ((s.run ((cycles cs).map (fun x => (i, x)))).run
      [(i, Action.callLock), (i, Action.step)]).agents[i]? = _ := q3
  rw [q1m, q3m]
  generalize (s.run ((cycles cs).map (fun x => (i, x)))).m = m at c1 c2 ⊢
  generalize (s.run ((cycles cs).map (fun x => (i, x)))).counter = n
  generalize (acts s.m s.counter a (cycles cs)).2.2 = b at c3 ⊢
  obtain ⟨pc, actx, ret, sends, incs⟩ := b
  simp only at c3
  subst c3
  rcases c1 with h | h | h <;> rw [h] at c2 ⊢
  · exact ⟨rfl, _, rfl, rfl⟩
  · exact ⟨rfl, _, rfl, rfl⟩
  · exact absurd c2 (by decide)

theorem lock_unlock_round_trip_witness :
    ((State.start 1).run ((cycles [none, some Context.withCancel, none]).map
      (fun x => (0, x)))).m.held = false ∧
    (∃ b, ((State.start 1).run ((cycles [none, some Context.withCancel, none]).map
      (fun x => (0, x)))).agents[0]? = some b ∧ b.pc = PC.idle) :=
  ⟨(lock_unlock_round_trip (State.start 1) 0 Agent.fresh [none, some Context.withCancel, none]
      (by decide) (by decide) (by decide) rfl
      (by intro ctx h; simp at h; subst h; rfl)).2.1,
   (lock_unlock_round_trip (State.start 1) 0 Agent.fresh [none, some Context.withCancel, none]
      (by decide) (by decide) (by decide) rfl
      (by intro ctx h; simp at h; subst h; rfl)).2.2.1⟩

/-- C7, as stated, fails. Agent 0 has called `m.Lock()` and holds the mutex;
agent 1 calls `LockWithContext` with a triggered token, which returns
`Canceled`, and then `Unlock()`: agent 1 does not panic, its `Unlock` returns
and empties the slot while agent 0 is still in its critical section. -/
theorem cancelled_unlock_does_not_panic :
    heldByFirst.m.held = true ∧
    heldByFirst.run ((cancelledThenUnlock Context.canceled).map (fun x => (1, x))) =
      ⟨⟨some ⟨1, 0⟩, true⟩, 0,
        [⟨PC.critical, Context.background, none, 1, 0⟩,
         ⟨PC.idle, Context.canceled, some (some Cause.canceled), 0, 0⟩]⟩ ∧
    ¬ ∃ b, (heldByFirst.run ((cancelledThenUnlock Context.canceled).map
      (fun x => (1, x)))).agents[1]? = some b ∧ b.pc = PC.panicked := by
  decide

/-- C7, amended. After a `LockWithContext` with a triggered token has returned
its cause, leaving the mutex as it was, a following `Unlock()` by the same agent
panics exactly when the mutex is Free; when the mutex is Held (by whoever
called `Lock()`: the mutex records no owner) that `Unlock()` returns and
leaves the mutex Free. -/
theorem cancelled_unlock_panics_iff_free (s : State) (i : Nat) (a : Agent) (ctx : Context)
    (e : Cause) (hwf : s.m.wf) (ha : s.agents[i]? = some a) (hidle : a.pc = PC.idle)
    (ht : ctx.Err = some e) :
    (∃ b, (s.run ((cancelledThenUnlock ctx).map (fun x => (i, x)))).agents[i]? = some b ∧
      b.ret = some (some e) ∧ b.sends = 0 ∧
      (b.pc = PC.panicked ↔ s.m.held = false) ∧ (b.pc = PC.idle ↔ s.m.held = true)) ∧
    (s.run ((cancelledThenUnlock ctx).map (fun x => (i, x)))).m.held = false := by
  obtain ⟨r1, -, r3⟩ := run_alone i (cancelledThenUnlock ctx) s a ha
  rw [r1, r3]
  obtain ⟨pc, actx, ret, sends, incs⟩ := a
  simp only at hidle
  subst hidle
  obtain ⟨cerr, ccan⟩ := ctx
  simp only [Context.Err] at ht
  subst ht
  rcases hwf with h | h | h <;> rw [h] <;> refine ⟨⟨_, rfl, rfl, rfl, ?_, ?_⟩, rfl⟩ <;>
    simp [acts, act, cancelledThenUnlock, Context.Err, Mutex.onceDo, Mutex.zero, Mutex.init,
      Mutex.recv, Chan.make, Chan.tryRecv, Mutex.held, Mutex.tokens]

theorem cancelled_unlock_panics_iff_free_witness :
    (∃ b, (heldByFirst.run ((cancelledThenUnlock Context.canceled).map
        (fun x => (1, x)))).agents[1]? = some b ∧
      b.ret = some (some Cause.canceled) ∧ b.sends = 0 ∧
      (b.pc = PC.panicked ↔ heldByFirst.m.held = false) ∧
      (b.pc = PC.idle ↔ heldByFirst.m.held = true)) :=
  (cancelled_unlock_panics_iff_free heldByFirst 1 Agent.fresh Context.canceled Cause.canceled
    (by decide) (by decide) rfl rfl).1

/-! ## Cond: the claims -/

/-- C8. `Signal` on any heap and any waiter table (a map: its keys are
distinct), with any order of the `range` over its keys. If some entry has a
channel that accepts a send, one such entry gets one token in its channel and
is deleted, every other entry stays and every other channel is unchanged. If
no entry has such a channel (as on an empty table), `Signal` changes nothing,
and the enrolment of a waiter afterwards returns (the table has fewer than
`2 ^ 64` entries) with a new, empty channel, all the old channels being as they
were. Hence `n` calls of `Signal` on `n` entries with
distinct channels that all accept a send empty the table and put exactly one
token in each of these channels, and in no other. -/
theorem signal_wakes_exactly_one (h : Heap) (c : Cond) (order : List Nat)
    (hk : (Waits.keys c.channelWaits).Nodup)
    (ho : order.Perm (Waits.keys c.channelWaits)) :
    ((∃ e ∈ c.channelWaits, h.ready e.2 = true) →
      ∃ k r ch, (k, r) ∈ c.channelWaits ∧ h[r]? = some ch ∧ ch.len < ch.cap ∧
        Cond.Signal h c order =
          (h.set r ⟨ch.cap, ch.len + 1⟩, ⟨c.nextID, Waits.delete c.channelWaits k⟩) ∧
        (∀ e, e ∈ Waits.delete c.channelWaits k ↔ e ∈ c.channelWaits ∧ e ≠ (k, r)) ∧
        (Waits.delete c.channelWaits k).length + 1 = c.channelWaits.length ∧
        (∀ r1, r1 ≠ r → (h.set r ⟨ch.cap, ch.len + 1⟩)[r1]? = h[r1]?)) ∧
    ((∀ e ∈ c.channelWaits, h.ready e.2 = false) →
      Cond.Signal h c order = (h, c) ∧
      (c.channelWaits.length < 2 ^ 64 →
        ∃ h1 c1 ch,
          Cond.enrol (Cond.Signal h c order).1 (Cond.Signal h c order).2 = some (h1, c1, ch) ∧
          h1[ch]? = some ⟨1, 0⟩ ∧ ch = h.length ∧ ∀ r, r < h.length → h1[r]? = h[r]?)) ∧
    (∀ orders : List (List Nat), (Waits.refs c.channelWaits).Nodup →
      (∀ e ∈ c.channelWaits, h.ready e.2 = true) →
      orders.length = c.channelWaits.length → Cond.orders h c orders →
      (Cond.signals h c orders).2.channelWaits = [] ∧
      (∀ e ∈ c.channelWaits, ∃ ch, h[e.2]? = some ch ∧
        (Cond.signals h c orders).1[e.2]? = some ⟨ch.cap, ch.len + 1⟩) ∧
      (∀ r, r ∉ Waits.refs c.channelWaits → (Cond.signals h c orders).1[r]? = h[r]?)) := by
  refine ⟨?_, ?_, ?_⟩
  · intro hs
    obtain ⟨k, -, r, ch, hlk, hch, hlt, hsig⟩ :=
      signal_some h c order (exists_ready_key h c order hk ho hs)
    have hmem := mem_of_lookup _ k r hlk
    exact ⟨k, r, ch, hmem, hch, hlt, hsig, mem_delete_iff_ne _ k r hk hmem,
      length_delete _ k hk (List.mem_map.mpr ⟨(k, r), hmem, rfl⟩),
      fun r1 hr1 => getElem?_set_other h r r1 _ hr1⟩
  · intro hn
    have hsig : Cond.Signal h c order = (h, c) :=
      signal_none h c order (fun k _ r hl => hn (k, r) (mem_of_lookup _ k r hl))
    refine ⟨hsig, ?_⟩
    intro hlen
    obtain ⟨id, -, -, he⟩ := enrol_returns h c hlen
    rw [hsig]
    exact ⟨_, _, _, he, enrol_channel h c _ _ _ he⟩
  · intro orders hr hready hl hord
    exact signals_all orders h c hk hr hready hl hord

theorem signal_wakes_exactly_one_witness :
    ∃ k r ch, (k, r) ∈ [(1, 0), (2, 1), (3, 2)] ∧
      [(⟨1, 1⟩ : Chan), ⟨1, 0⟩, ⟨1, 0⟩][r]? = some ch ∧ ch.len < ch.cap ∧
      Cond.Signal [⟨1, 1⟩, ⟨1, 0⟩, ⟨1, 0⟩] ⟨3, [(1, 0), (2, 1), (3, 2)]⟩ [1, 3, 2] =
        ([(⟨1, 1⟩ : Chan), ⟨1, 0⟩, ⟨1, 0⟩].set r ⟨ch.cap, ch.len + 1⟩,
          ⟨3, Waits.delete [(1, 0), (2, 1), (3, 2)] k⟩) := by
  obtain ⟨k, r, ch, h1, h2, h3, h4, -⟩ :=
    (signal_wakes_exactly_one [⟨1, 1⟩, ⟨1, 0⟩, ⟨1, 0⟩] ⟨3, [(1, 0), (2, 1), (3, 2)]⟩ [1, 3, 2]
      (by decide) (by decide)).1 ⟨(2, 1), by decide, by decide⟩
  exact ⟨k, r, ch, h1, h2, h3, h4⟩

/-- C9, evaluated at the failing input. After the schedule `staleEntry`,
agent 1 is suspended inside `Wait()` on channel 1, agent 0 is outside every call
and holds `L`, and the table still has the entry of the cancelled wait of agent
0 next to that of agent 1. `Signal`, when its `range` visits key 1 first, puts
its token in channel 0 and deletes that entry: channel 1 stays empty, agent 1
is not woken (its receive cannot proceed once `L` is released) and its entry
stays in the table. With the other order the same call wakes agent 1. -/
theorem signal_delivers_to_stale_entry :
    (CondState.start 2).run staleEntry =
      ⟨[⟨1, 0⟩, ⟨1, 0⟩], ⟨2, [(2, 1), (1, 0)]⟩, some 0,
        [⟨WaitPC.out, Context.canceled, some (some Cause.canceled), [LCall.unlock, LCall.lock]⟩,
         ⟨WaitPC.waitRace 1, Context.todo, none, [LCall.unlock]⟩]⟩ ∧
    ((CondState.start 2).run staleEntry).step 0 (CondAction.signal [1, 2]) =
      ⟨[⟨1, 1⟩, ⟨1, 0⟩], ⟨2, [(2, 1)]⟩, some 0,
        [⟨WaitPC.out, Context.canceled, some (some Cause.canceled), [LCall.unlock, LCall.lock]⟩,
         ⟨WaitPC.waitRace 1, Context.todo, none, [LCall.unlock]⟩]⟩ ∧
    (((CondState.start 2).run staleEntry).run
        [(0, CondAction.signal [1, 2]), (0, CondAction.unlock), (1, CondAction.step)]).agents[1]? =
      some ⟨WaitPC.waitRace 1, Context.todo, none, [LCall.unlock]⟩ ∧
    (((CondState.start 2).run staleEntry).run
        [(0, CondAction.signal [2, 1]), (0, CondAction.unlock), (1, CondAction.step),
         (1, CondAction.step)]).agents[1]? =
      some ⟨WaitPC.out, Context.todo, some none, [LCall.unlock, LCall.lock]⟩ := by
  decide

/-- C10. `Broadcast` on any heap and any waiter table whose keys are distinct
and whose channels are distinct, with any order of the `range` over its keys.
Every entry whose channel was not full gets exactly one token in its channel
and is deleted; every entry whose channel was full (or is no channel of the
heap) stays in the table with its channel untouched; channels outside the table
are untouched, so no channel gets more than one token; nothing is added to the
table and `nextID` is unchanged; the enrolment of a waiter afterwards returns
(the table has fewer than `2 ^ 64` entries) with a new, empty channel. -/
theorem broadcast_coverage (h : Heap) (c : Cond) (order : List Nat)
    (hk : (Waits.keys c.channelWaits).Nodup) (hr : (Waits.refs c.channelWaits).Nodup)
    (ho : order.Perm (Waits.keys c.channelWaits)) :
    (∀ (k r : Nat) (ch : Chan), (k, r) ∈ c.channelWaits → h[r]? = some ch → ch.len < ch.cap →
      (Cond.Broadcast h c order).1[r]? = some ⟨ch.cap, ch.len + 1⟩ ∧
      k ∉ Waits.keys (Cond.Broadcast h c order).2.channelWaits) ∧
    (∀ k r, (k, r) ∈ c.channelWaits → h.ready r = false →
      (Cond.Broadcast h c order).1[r]? = h[r]? ∧
      (k, r) ∈ (Cond.Broadcast h c order).2.channelWaits) ∧
    (∀ r, r ∉ Waits.refs c.channelWaits → (Cond.Broadcast h c order).1[r]? = h[r]?) ∧
    (∀ (r : Nat) (ch : Chan), h[r]? = some ch →
      ∃ ch1 : Chan, (Cond.Broadcast h c order).1[r]? = some ch1 ∧
      ch1.cap = ch.cap ∧ (ch1.len = ch.len ∨ ch1.len = ch.len + 1)) ∧
    (∀ e, e ∈ (Cond.Broadcast h c order).2.channelWaits → e ∈ c.channelWaits) ∧
    (Cond.Broadcast h c order).2.nextID = c.nextID ∧
    (c.channelWaits.length < 2 ^ 64 →
      ∃ h1 c1 ch,
        Cond.enrol (Cond.Broadcast h c order).1 (Cond.Broadcast h c order).2
          = some (h1, c1, ch) ∧
        h1[ch]? = some ⟨1, 0⟩ ∧ ch = (Cond.Broadcast h c order).1.length) := by
  obtain ⟨hnd, hmem⟩ := order_refs c order hk hr ho
  obtain ⟨b1, b2, b3⟩ := bsends_spec c order h [] hnd
  have hB : Cond.Broadcast h c order =
      ((Cond.broadcastSends c h [] order).1,
        ⟨c.nextID, Waits.deleteAll c.channelWaits (Cond.broadcastSends c h [] order).2⟩) := rfl
  rw [hB]
  have p1 : ∀ (k r : Nat) (ch : Chan), (k, r) ∈ c.channelWaits → h[r]? = some ch → ch.len < ch.cap →
      (Cond.broadcastSends c h [] order).1[r]? = some ⟨ch.cap, ch.len + 1⟩ := by
    intro k r ch he hc hlt
    exact b1 r ((hmem r).mpr (List.mem_map.mpr ⟨(k, r), he, rfl⟩)) ch hc hlt
  refine ⟨?_, ?_, ?_, ?_, ?_, rfl, ?_⟩
  · intro k r ch he hc hlt
    refine ⟨p1 k r ch he hc hlt, ?_⟩
    intro hkm
    obtain ⟨e, he2, hq⟩ := List.mem_map.mp hkm
    have := ((mem_deleteAll _ _ e).mp he2).2
    apply this
    rw [hq, b3 k]
    exact Or.inr ⟨ho.mem_iff.mpr (List.mem_map.mpr ⟨(k, r), he, rfl⟩), r,
      (lookup_some_iff _ k r hk).mpr he, (ready_iff h r).mpr ⟨ch, hc, hlt⟩⟩
  · intro k r he hnr
    refine ⟨b2 r (Or.inr hnr), ?_⟩
    apply (mem_deleteAll _ _ (k, r)).mpr
    refine ⟨he, ?_⟩
    intro hkm
    rcases (b3 k).mp hkm with q | ⟨-, r1, q2, q3⟩
    · simp at q
    · have := (lookup_some_iff _ k r hk).mpr he
      rw [this] at q2
      cases q2
      rw [hnr] at q3
      cases q3
  · intro r hrn
    exact b2 r (Or.inl (fun q => hrn ((hmem r).mp q)))
  · intro r ch hc
    by_cases hin : r ∈ Waits.refs c.channelWaits ∧ ch.len < ch.cap
    · obtain ⟨⟨k, r1⟩, he, hq⟩ := List.mem_map.mp hin.1
      simp only at hq
      subst hq
      exact ⟨_, p1 k r1 ch he hc hin.2, rfl, Or.inr rfl⟩
    · refine ⟨ch, ?_, rfl, Or.inl rfl⟩
      rw [← hc]
      apply b2 r
      by_cases hrm : r ∈ Waits.refs c.channelWaits
      · right
        cases hq : h.ready r with
        | false => rfl
        | true =>
          obtain ⟨ch2, hc2, hlt⟩ := (ready_iff h r).mp hq
          rw [hc] at hc2
          cases hc2
          exact absurd ⟨hrm, hlt⟩ hin
      · exact Or.inl (fun q => hrm ((hmem r).mp q))
  · intro e he
    exact ((mem_deleteAll _ _ e).mp he).1
  · intro hlen
    obtain ⟨id, -, -, he⟩ := enrol_returns (Cond.broadcastSends c h [] order).1
      ⟨c.nextID, Waits.deleteAll c.channelWaits (Cond.broadcastSends c h [] order).2⟩
      (Nat.lt_of_le_of_lt (length_deleteAll_le _ _) hlen)
    obtain ⟨e1, e2, -⟩ := enrol_channel _ _ _ _ _ he
    exact ⟨_, _, _, he, e1, e2⟩

theorem broadcast_coverage_witness :
    Cond.Broadcast [⟨1, 0⟩, ⟨1, 1⟩, ⟨1, 0⟩, ⟨1, 0⟩] ⟨3, [(3, 2), (1, 0), (2, 1)]⟩ [2, 1, 3] =
      ([⟨1, 1⟩, ⟨1, 1⟩, ⟨1, 1⟩, ⟨1, 0⟩], ⟨3, [(2, 1)]⟩) ∧
    (Cond.Broadcast [⟨1, 0⟩, ⟨1, 1⟩, ⟨1, 0⟩, ⟨1, 0⟩] ⟨3, [(3, 2), (1, 0), (2, 1)]⟩ [2, 1, 3]).1[2]?
      = some ⟨1, 0 + 1⟩ ∧
    3 ∉ Waits.keys
      (Cond.Broadcast [⟨1, 0⟩, ⟨1, 1⟩, ⟨1, 0⟩, ⟨1, 0⟩] ⟨3, [(3, 2), (1, 0), (2, 1)]⟩
        [2, 1, 3]).2.channelWaits :=
  ⟨by decide,
   (broadcast_coverage [⟨1, 0⟩, ⟨1, 1⟩, ⟨1, 0⟩, ⟨1, 0⟩] ⟨3, [(3, 2), (1, 0), (2, 1)]⟩ [2, 1, 3]
      (by decide) (by decide) (by decide)).1 3 2 ⟨1, 0⟩ (by decide) (by decide) (by decide)⟩

/-- C11. `WaitWithContext` with a token already triggered on entry, called by
an agent that is outside every call and holds `L`: the call returns in its
first step with exactly the token's cause; the channels, the waiter table and
`nextID` are unchanged (no enrolment), `L` is still held by the caller, and the
call made no `Unlock` or `Lock` on `L`. The body of the method does the same
from any state, whoever holds `L`. -/
theorem waitWithContext_triggered_on_entry (s : CondState) (i : Nat) (w : Waiter) (ctx : Context)
    (e : Cause) (hi : s.agents[i]? = some w) (hout : w.pc = WaitPC.out)
    (hl : s.holder = some i) (ht : ctx.Err = some e) :
    s.step i (CondAction.waitWithContext ctx) =
      ⟨s.heap, s.cond, s.holder, s.agents.set i ⟨WaitPC.out, ctx, some (some e), []⟩⟩ ∧
    (s.step i (CondAction.waitWithContext ctx)).cond.channelWaits = s.cond.channelWaits ∧
    (s.step i (CondAction.waitWithContext ctx)).cond.nextID = s.cond.nextID ∧
    (s.step i (CondAction.waitWithContext ctx)).heap = s.heap ∧
    (s.step i (CondAction.waitWithContext ctx)).holder = some i ∧
    (s.step i (CondAction.waitWithContext ctx)).agents[i]? =
      some ⟨WaitPC.out, ctx, some (some e), []⟩ ∧
    (∀ (t : CondState) (j : Nat), t.enter j ctx =
      ⟨t.heap, t.cond, t.holder, t.agents.set j ⟨WaitPC.out, ctx, some (some e), []⟩⟩) := by
  have h1 : s.step i (CondAction.waitWithContext ctx) =
      ⟨s.heap, s.cond, s.holder, s.agents.set i ⟨WaitPC.out, ctx, some (some e), []⟩⟩ := by
    rw [cstep_eq s i _ w hi]
    simp [CondState.act, CondState.enter, hout, hl, ht]
  refine ⟨h1, ?_, ?_, ?_, ?_, ?_, ?_⟩
  · rw [h1]
  · rw [h1]
  · rw [h1]
  · rw [h1]; exact hl
  · rw [h1]
    exact List.getElem?_set_eq_of_lt _ (List.getElem?_eq_some.mp hi).1
  · intro t j
    simp [CondState.enter, ht]

theorem waitWithContext_triggered_on_entry_witness :
    ((CondState.start 1).step 0 CondAction.lock).step 0
        (CondAction.waitWithContext Context.canceled) =
      ⟨[], NewCond, some 0, [⟨WaitPC.out, Context.canceled, some (some Cause.canceled), []⟩]⟩ :=
  (waitWithContext_triggered_on_entry ((CondState.start 1).step 0 CondAction.lock) 0 Waiter.fresh
    Context.canceled Cause.canceled (by decide) rfl (by decide) rfl).1

/-- C12. `Wait`/`WaitWithContext` re-acquires `L`. In every state reached from
the start by any schedule, take a step of agent `i` from agent state `a` to
`b`. If the step takes the agent from inside the call to outside (the call
returns after having enrolled, whichever `select` case decided the return
value), the step is the deferred `c.L.Lock()`: `L` was free, is held by `i`
afterwards, and the calls of the call on `L` are exactly one `Unlock` followed
by one `Lock`. If the step is a call with `L` held and a token already
triggered, it returns at once, `L` still held by `i` and no call made on `L`.
While the agent is enrolled the one `Unlock` is the only call made. -/
theorem wait_reacquires (n : Nat) (sched : List (Nat × CondAction)) (i : Nat) (x : CondAction)
    (a b : Waiter)
    (ha : ((CondState.start n).run sched).agents[i]? = some a)
    (hb : (((CondState.start n).run sched).step i x).agents[i]? = some b) :
    (a.pc ≠ WaitPC.out → b.pc = WaitPC.out →
      (∃ ch r, a.pc = WaitPC.waitRelock ch r ∧ b.ret = some r) ∧ x = CondAction.step ∧
      ((CondState.start n).run sched).holder = none ∧
      (((CondState.start n).run sched).step i x).holder = some i ∧
      a.lcalls = [LCall.unlock] ∧ b.lcalls = [LCall.unlock, LCall.lock]) ∧
    (∀ ctx e, a.pc = WaitPC.out → x = CondAction.waitWithContext ctx →
      ((CondState.start n).run sched).holder = some i → ctx.Err = some e →
      b.pc = WaitPC.out ∧ b.ret = some (some e) ∧ b.lcalls = [] ∧
      (((CondState.start n).run sched).step i x).holder = some i) ∧
    (a.pc ≠ WaitPC.out → a.pc ≠ WaitPC.probing → a.lcalls = [LCall.unlock]) := by
  have hok : a.callsOk := by
    apply agents_run Waiter.callsOk act_callsOk sched (CondState.start n) _ i a ha
    intro j w hj
    simp [CondState.start, List.getElem?_replicate] at hj
    obtain ⟨-, rfl⟩ := hj
    exact Or.inl rfl
  rw [cstep_eq _ i x a ha] at hb ⊢
  exact act_return _ i a x ha hok b hb

theorem wait_reacquires_witness :
    ((CondState.start 2).run (signalledEarly ++ [(0, CondAction.step)])).holder = none ∧
    (((CondState.start 2).run (signalledEarly ++ [(0, CondAction.step)])).step 0
      CondAction.step).holder = some 0 ∧
    (((CondState.start 2).run (signalledEarly ++ [(0, CondAction.step)])).step 0
      CondAction.step).agents[0]? =
        some ⟨WaitPC.out, Context.canceled, some none, [LCall.unlock, LCall.lock]⟩ :=
  ⟨((wait_reacquires 2 (signalledEarly ++ [(0, CondAction.step)]) 0 CondAction.step
      ⟨WaitPC.waitRelock 0 none, Context.canceled, none, [LCall.unlock]⟩
      ⟨WaitPC.out, Context.canceled, some none, [LCall.unlock, LCall.lock]⟩
      (by decide) (by decide)).1 (by decide) rfl).2.2.1,
   ((wait_reacquires 2 (signalledEarly ++ [(0, CondAction.step)]) 0 CondAction.step
      ⟨WaitPC.waitRelock 0 none, Context.canceled, none, [LCall.unlock]⟩
      ⟨WaitPC.out, Context.canceled, some none, [LCall.unlock, LCall.lock]⟩
      (by decide) (by decide)).1 (by decide) rfl).2.2.2.1,
   by decide⟩

/-- C13. `Wait()` returns only when woken. In every state reached from the
start by a schedule `sched`, take a step of agent `i` from agent state `a` to
`b`. An agent whose return value is decided as nil has been delivered a token:
some earlier step of `sched` is a `Signal` or `Broadcast` that put a token in
the channel of its call. A call that returns nil does so from that situation.
The decision for nil is taken only by a receive in one of the two `select`
statements, which takes one token out of the channel of the call. An agent
inside `Wait()`, whose token is `context.TODO()`, keeps that token, never takes
the cancellation exit and never returns an error. -/
theorem wait_returns_only_when_woken (n : Nat) (sched : List (Nat × CondAction)) (i : Nat)
    (x : CondAction) (a b : Waiter)
    (ha : ((CondState.start n).run sched).agents[i]? = some a)
    (hb : (((CondState.start n).run sched).step i x).agents[i]? = some b) :
    (∀ ch, a.pc = WaitPC.waitRelock ch none →
      (CondState.start n).delivered sched ch = true) ∧
    (a.pc ≠ WaitPC.out → b.pc = WaitPC.out → b.ret = some none →
      ∃ ch, a.pc = WaitPC.waitRelock ch none ∧
        (CondState.start n).delivered sched ch = true) ∧
    (∀ ch, b.pc = WaitPC.waitRelock ch none → a.pc ≠ WaitPC.waitRelock ch none →
      x = CondAction.step ∧ (a.pc = WaitPC.waitTry ch ∨ a.pc = WaitPC.waitRace ch) ∧
      (((CondState.start n).run sched).step i x).heap.tokens ch + 1 =
        ((CondState.start n).run sched).heap.tokens ch ∧
      (CondState.start n).delivered sched ch = true) ∧
    (a.ctx = Context.todo → a.pc ≠ WaitPC.out →
      b.ctx = Context.todo ∧ (∀ ch e, b.pc ≠ WaitPC.waitRelock ch (some e)) ∧
      (∀ e, b.ret ≠ some (some e))) ∧
    (x = CondAction.wait → a.pc = WaitPC.out → ((CondState.start n).run sched).holder = some i →
      b.ctx = Context.todo) := by
  have hfresh : ∀ (j : Nat) (w : Waiter), (CondState.start n).agents[j]? = some w →
      w = Waiter.fresh := by
    intro j w hj
    simp [CondState.start, List.getElem?_replicate] at hj
    exact hj.2.symm
  have hoka : a.callsOk :=
    agents_run Waiter.callsOk act_callsOk sched (CondState.start n)
      (fun j w hj => by rw [hfresh j w hj]; exact Or.inl rfl) i a ha
  have hb2 : ((CondState.start n).run (sched ++ [(i, x)])).agents[i]? = some b := by
    rw [crun_append]; exact hb
  have hcb : b.cancelOk :=
    agents_run Waiter.cancelOk act_cancelOk (sched ++ [(i, x)]) (CondState.start n)
      (fun j w hj => by
        rw [hfresh j w hj]
        exact ⟨fun ch e h => (by cases h), fun e h => (by cases h)⟩) i b hb2
  have hd := relock_delivered n sched i a
  rw [cstep_eq _ i x a ha] at hb ⊢
  refine ⟨fun ch h => hd ch ha h, ?_, ?_, ?_, ?_⟩
  · intro h1 h2 h3
    obtain ⟨⟨ch, r, hr1, hr2⟩, -⟩ := (act_return _ i a x ha hoka b hb).1 h1 h2
    rw [h3] at hr2
    cases hr2
    exact ⟨ch, hr1, hd ch ha hr1⟩
  · intro ch h1 h2
    obtain ⟨c1, c2, c3⟩ := act_consume _ i a x ha b hb ch h1 h2
    refine ⟨c1, c2, c3, ?_⟩
    apply tokens_delivered sched ch (CondState.start n)
    have h0 : (CondState.start n).heap.tokens ch = 0 := rfl
    omega
  · intro h1 h2
    have ht := (act_todo _ i a x ha b hb).1 h1 h2
    refine ⟨ht, ?_, ?_⟩
    · intro ch e hpc
      have := hcb.1 ch e hpc
      rw [ht] at this
      cases this
    · intro e hret
      have := hcb.2 e hret
      rw [ht] at this
      cases this
  · exact (act_todo _ i a x ha b hb).2

theorem wait_returns_only_when_woken_witness :
    ((CondState.start 2).run (signalledEarly ++ [(0, CondAction.step)])).agents[0]? =
      some ⟨WaitPC.waitRelock 0 none, Context.canceled, none, [LCall.unlock]⟩ ∧
    (CondState.start 2).delivered (signalledEarly ++ [(0, CondAction.step)]) 0 = true :=
  ⟨by decide,
   (wait_returns_only_when_woken 2 (signalledEarly ++ [(0, CondAction.step)]) 0 CondAction.step
      ⟨WaitPC.waitRelock 0 none, Context.canceled, none, [LCall.unlock]⟩
      ⟨WaitPC.out, Context.canceled, some none, [LCall.unlock, LCall.lock]⟩
      (by decide) (by decide)).1 0 rfl⟩

/-- C14, evaluated at the failing input. One agent takes `L`, calls
`WaitWithContext`, its token is cancelled while it waits, and the call returns
`Canceled` with `L` re-acquired. In the state reached, `L` is held by the agent,
no agent is inside a call, and the waiter table still has the entry `1` of
that call: an entry that belongs to no suspended agent. -/
theorem stale_entry_after_cancel :
    (CondState.start 1).run cancelledWait =
      ⟨[⟨1, 0⟩], ⟨1, [(1, 0)]⟩, some 0,
        [⟨WaitPC.out, Context.canceled, some (some Cause.canceled),
          [LCall.unlock, LCall.lock]⟩]⟩ ∧
    ((CondState.start 1).run cancelledWait).cond.channelWaits ≠ [] ∧
    (∀ w ∈ ((CondState.start 1).run cancelledWait).agents,
      w.pc = WaitPC.out ∧ w.suspended = false) := by
  decide

/-- C15, evaluated at the failing input. Agent 0 is enrolled with a
cancellable token and agent 1 is suspended inside `Wait()`. The token of agent
0 is cancelled and agent 0 takes the cancellation branch of its second
`select`; before it re-acquires `L`, agent 2 takes `L` and calls `Signal`, whose
`range` visits key 1 first, so the token goes into the channel of agent 0.
Agent 0 then re-acquires `L` and returns `Canceled`: the token is still in its
channel, the outcome is not converted to nil, and agent 1 stays suspended, its
receive being unable to proceed. The wake-up is lost. -/
theorem lost_wakeup_on_cancel :
    (CondState.start 3).run lostWakeup =
      ⟨[⟨1, 0⟩, ⟨1, 0⟩], ⟨2, [(2, 1), (1, 0)]⟩, some 2,
        [⟨WaitPC.waitRelock 0 (some Cause.canceled), Context.canceled, none, [LCall.unlock]⟩,
         ⟨WaitPC.waitRace 1, Context.todo, none, [LCall.unlock]⟩,
         ⟨WaitPC.out, Context.background, none, []⟩]⟩ ∧
    ((CondState.start 3).run lostWakeup).run
        [(2, CondAction.signal [1, 2]), (2, CondAction.unlock), (0, CondAction.step)] =
      ⟨[⟨1, 1⟩, ⟨1, 0⟩], ⟨2, [(2, 1)]⟩, some 0,
        [⟨WaitPC.out, Context.canceled, some (some Cause.canceled), [LCall.unlock, LCall.lock]⟩,
         ⟨WaitPC.waitRace 1, Context.todo, none, [LCall.unlock]⟩,
         ⟨WaitPC.out, Context.background, none, []⟩]⟩ ∧
    (CondState.start 3).delivered
        (lostWakeup ++ [(2, CondAction.signal [1, 2]), (2, CondAction.unlock),
          (0, CondAction.step)]) 0 = true ∧
    (((CondState.start 3).run lostWakeup).run
        [(2, CondAction.signal [1, 2]), (2, CondAction.unlock), (0, CondAction.step)]).heap.tokens 0
      = 1 ∧
    (((CondState.start 3).run lostWakeup).run
        [(2, CondAction.signal [1, 2]), (2, CondAction.unlock), (0, CondAction.step),
         (1, CondAction.step)]).agents[1]? =
      some ⟨WaitPC.waitRace 1, Context.todo, none, [LCall.unlock]⟩ := by
  decide

/-- C16. Wake-up wins over cancellation once enrolled. An agent is enrolled
with channel `ch` and at its first `select`, and a token is present in `ch`.
Whatever its cancellation token is (triggered or not), its step receives: one
token leaves the channel, the return value is decided as nil, and table,
`nextID` and `L` are untouched; the action of the cancellation branch does
nothing there. From the state so reached and any later state in which the
agent is still there and `L` is free, the deferred `c.L.Lock()` makes the call
return nil with `L` held. -/
theorem wakeup_wins_at_first_select (s : CondState) (i : Nat) (a : Waiter) (ch : Nat) (c0 : Chan)
    (ha : s.agents[i]? = some a) (hpc : a.pc = WaitPC.waitTry ch)
    (hc : s.heap[ch]? = some c0) (htok : 0 < c0.len) :
    s.step i CondAction.step =
      ⟨s.heap.set ch ⟨c0.cap, c0.len - 1⟩, s.cond, s.holder,
        s.agents.set i ⟨WaitPC.waitRelock ch none, a.ctx, a.ret, a.lcalls⟩⟩ ∧
    (s.step i CondAction.step).heap.tokens ch + 1 = s.heap.tokens ch ∧
    (s.step i CondAction.step).agents[i]? =
      some ⟨WaitPC.waitRelock ch none, a.ctx, a.ret, a.lcalls⟩ ∧
    s.step i CondAction.done = s ∧
    (∀ (t : CondState) (w : Waiter), t.agents[i]? = some w → w.pc = WaitPC.waitRelock ch none →
      t.holder = none →
      (t.step i CondAction.step).agents[i]? =
        some ⟨WaitPC.out, w.ctx, some none, w.lcalls ++ [LCall.lock]⟩ ∧
      (t.step i CondAction.step).holder = some i ∧
      (t.step i CondAction.step).heap = t.heap) := by
  have hlt := (List.getElem?_eq_some.mp ha).1
  have hrecv : s.heap.tryRecv ch = some (s.heap.set ch ⟨c0.cap, c0.len - 1⟩) := by
    simp [Heap.tryRecv, hc, Chan.tryRecv, htok]
  obtain ⟨pc, ctx, ret, lc⟩ := a
  simp only at hpc
  subst hpc
  have h1 : s.step i CondAction.step =
      ⟨s.heap.set ch ⟨c0.cap, c0.len - 1⟩, s.cond, s.holder,
        s.agents.set i ⟨WaitPC.waitRelock ch none, ctx, ret, lc⟩⟩ := by
    rw [cstep_eq s i _ _ ha]
    simp only [CondState.act, hrecv]
  refine ⟨h1, ?_, ?_, ?_, ?_⟩
  · rw [h1]
    exact (tokens_tryRecv _ _ ch ch hrecv).2
  · rw [h1]
    exact List.getElem?_set_eq_of_lt _ hlt
  · rw [cstep_eq s i _ _ ha]
    simp only [CondState.act]
  · intro t w hw hwpc hfree
    have hl2 := (List.getElem?_eq_some.mp hw).1
    obtain ⟨pc2, ctx2, ret2, lc2⟩ := w
    simp only at hwpc
    subst hwpc
    have h2 : t.step i CondAction.step =
        ⟨t.heap, t.cond, some i,
          t.agents.set i ⟨WaitPC.out, ctx2, some none, lc2 ++ [LCall.lock]⟩⟩ := by
      rw [cstep_eq t i _ _ hw]
      simp only [CondState.act, hfree]
    rw [h2]
    exact ⟨List.getElem?_set_eq_of_lt _ hl2, rfl, rfl⟩

theorem wakeup_wins_at_first_select_witness :
    ((CondState.start 2).run signalledEarly).agents[0]? =
      some ⟨WaitPC.waitTry 0, Context.canceled, none, [LCall.unlock]⟩ ∧
    (((CondState.start 2).run signalledEarly).step 0 CondAction.step).agents[0]? =
      some ⟨WaitPC.waitRelock 0 none, Context.canceled, none, [LCall.unlock]⟩ ∧
    ((((CondState.start 2).run signalledEarly).step 0 CondAction.step).step 0
      CondAction.step).agents[0]? =
      some ⟨WaitPC.out, Context.canceled, some none, [LCall.unlock] ++ [LCall.lock]⟩ :=
  ⟨by decide,
   (wakeup_wins_at_first_select ((CondState.start 2).run signalledEarly) 0
      ⟨WaitPC.waitTry 0, Context.canceled, none, [LCall.unlock]⟩ 0 ⟨1, 1⟩
      (by decide) rfl (by decide) (by decide)).2.2.1,
   ((wakeup_wins_at_first_select ((CondState.start 2).run signalledEarly) 0
      ⟨WaitPC.waitTry 0, Context.canceled, none, [LCall.unlock]⟩ 0 ⟨1, 1⟩
      (by decide) rfl (by decide) (by decide)).2.2.2.2
      (((CondState.start 2).run signalledEarly).step 0 CondAction.step)
      ⟨WaitPC.waitRelock 0 none, Context.canceled, none, [LCall.unlock]⟩
      (by decide) rfl (by decide)).1⟩

/-- C17. Fresh waiter id under wrap-around. For every heap, every table that
lacks at least one of the `2 ^ 64` ids and every value of `nextID`, the
enrolment returns: the probe loop ends with an id below `2 ^ 64` that is absent
from the table, the first such id after `nextID` in increasing order modulo
`2 ^ 64` (after `2 ^ 64 - 1` the id `0` is tried first). The new table is the
old one with the one entry `id ↦ new channel` added: every old entry is found
as before, keys stay distinct, and the new channel is an empty channel of
capacity 1 appended to the heap, different from the channel of every old
entry, every old channel being unchanged. -/
theorem enrol_fresh_id (h : Heap) (c : Cond)
    (hfree : ∃ id, id < 2 ^ 64 ∧ Waits.lookup c.channelWaits id = none) :
    ∃ id,
      Cond.enrol h c =
        some (h ++ [⟨1, 0⟩], ⟨id, (id, h.length) :: c.channelWaits⟩, h.length) ∧
      id < 2 ^ 64 ∧ id ∉ Waits.keys c.channelWaits ∧
      (∃ j, j < 2 ^ 64 ∧ id = (c.nextID + 1 + j) % 2 ^ 64 ∧
        ∀ j1, j1 < j → (c.nextID + 1 + j1) % 2 ^ 64 ∈ Waits.keys c.channelWaits) ∧
      (c.nextID = 2 ^ 64 - 1 → Waits.lookup c.channelWaits 0 = none → id = 0) ∧
      ((Waits.keys c.channelWaits).Nodup →
        (Waits.keys ((id, h.length) :: c.channelWaits)).Nodup) ∧
      ((∀ e ∈ c.channelWaits, e.2 < h.length) → (Waits.refs c.channelWaits).Nodup →
        (Waits.refs ((id, h.length) :: c.channelWaits)).Nodup) ∧
      (∀ k r, Waits.lookup c.channelWaits k = some r →
        Waits.lookup ((id, h.length) :: c.channelWaits) k = some r) ∧
      Waits.lookup ((id, h.length) :: c.channelWaits) id = some h.length ∧
      ((id, h.length) :: c.channelWaits).length = c.channelWaits.length + 1 ∧
      (∀ r, r < h.length → (h ++ [(⟨1, 0⟩ : Chan)])[r]? = h[r]?) ∧
      (h ++ [(⟨1, 0⟩ : Chan)])[h.length]? = some ⟨1, 0⟩ := by
  obtain ⟨id, hp⟩ := probe_terminates_free c.channelWaits c.nextID hfree
  obtain ⟨hl, hlt⟩ := probe_spec _ _ _ _ hp
  obtain ⟨j, hj, hid, hbefore⟩ := probe_first _ _ _ _ hp
  have hnk : id ∉ Waits.keys c.channelWaits := (lookup_none_iff _ id).mp hl
  refine ⟨id, ?_, hlt, hnk, ⟨j, hj, hid, hbefore⟩, ?_, ?_, ?_, ?_, ?_, rfl, ?_, ?_⟩
  · unfold Cond.enrol
    rw [hp]
    simp only [Waits.insert, delete_absent _ id hl, Chan.make]
  · intro hn h0
    cases j with
    | zero =>
      rw [hid, hn]
      norm_num
    | succ j =>
      have := hbefore 0 (by omega)
      rw [hn] at this
      norm_num at this
      exact absurd this ((lookup_none_iff _ 0).mp h0)
  · intro hk
    exact List.nodup_cons.mpr ⟨hnk, hk⟩
  · intro hv hr
    refine List.nodup_cons.mpr ⟨?_, hr⟩
    intro hm
    obtain ⟨e, he, hq⟩ := List.mem_map.mp hm
    have := hv e he
    omega
  · intro k r hk
    have hne : id ≠ k := by
      intro q
      subst q
      rw [hl] at hk
      cases hk
    simp [Waits.lookup, hne, hk]
  · simp [Waits.lookup]
  · intro r hr
    exact List.getElem?_append_left hr
  · simp

theorem enrol_fresh_id_witness :
    ∃ id,
      Cond.enrol [⟨1, 0⟩, ⟨1, 0⟩] ⟨2 ^ 64 - 1, [(0, 0), (1, 1)]⟩ =
        some ([⟨1, 0⟩, ⟨1, 0⟩] ++ [⟨1, 0⟩], ⟨id, (id, 2) :: [(0, 0), (1, 1)]⟩, 2) ∧
      id < 2 ^ 64 ∧ id ∉ Waits.keys [(0, 0), (1, 1)] := by
  obtain ⟨id, h1, h2, h3, -⟩ :=
    enrol_fresh_id [⟨1, 0⟩, ⟨1, 0⟩] ⟨2 ^ 64 - 1, [(0, 0), (1, 1)]⟩ ⟨2, by norm_num, by decide⟩
  exact ⟨id, h1, h2, h3⟩

/-- C18. In every state that a `Cond` reaches from `NewCond` by any schedule
(enrolments, `Signal`, `Broadcast`, receives and exits of waiters), the table
has distinct ids and distinct channels, and every channel stored in it is in
the heap, empty and of capacity 1. So the non-blocking send to a channel of the
table succeeds; `Broadcast`, whatever the order of its `range`, puts one token
in the channel of every entry and leaves the table empty; `Signal`, whatever
the order of its `range`, on a table that is not empty puts one token in the
channel of one entry and removes exactly that entry. -/
theorem table_channels_empty (n : Nat) (sched : List (Nat × CondAction)) :
    Cond.tableOk ((CondState.start n).run sched).heap ((CondState.start n).run sched).cond ∧
    (∀ e ∈ ((CondState.start n).run sched).cond.channelWaits,
      ((CondState.start n).run sched).heap[e.2]? = some ⟨1, 0⟩ ∧
      ((CondState.start n).run sched).heap.trySend e.2 =
        some (((CondState.start n).run sched).heap.set e.2 ⟨1, 1⟩)) ∧
    (∀ order : List Nat,
      order.Perm (Waits.keys ((CondState.start n).run sched).cond.channelWaits) →
      (Cond.Broadcast ((CondState.start n).run sched).heap ((CondState.start n).run sched).cond
        order).2.channelWaits = [] ∧
      ∀ e ∈ ((CondState.start n).run sched).cond.channelWaits,
        (Cond.Broadcast ((CondState.start n).run sched).heap
          ((CondState.start n).run sched).cond order).1[e.2]? = some ⟨1, 1⟩) ∧
    (∀ order : List Nat,
      order.Perm (Waits.keys ((CondState.start n).run sched).cond.channelWaits) →
      ((CondState.start n).run sched).cond.channelWaits ≠ [] →
      ∃ k r, (k, r) ∈ ((CondState.start n).run sched).cond.channelWaits ∧
        Cond.Signal ((CondState.start n).run sched).heap ((CondState.start n).run sched).cond
            order =
          (((CondState.start n).run sched).heap.set r ⟨1, 1⟩,
            ⟨((CondState.start n).run sched).cond.nextID,
              Waits.delete ((CondState.start n).run sched).cond.channelWaits k⟩) ∧
        (Waits.delete ((CondState.start n).run sched).cond.channelWaits k).length + 1 =
          ((CondState.start n).run sched).cond.channelWaits.length) := by
  have hok : Cond.tableOk ((CondState.start n).run sched).heap
      ((CondState.start n).run sched).cond :=
    state_run (fun s => Cond.tableOk s.heap s.cond)
      (fun s i w x _ h => act_tableOk s i w x h) sched (CondState.start n)
      ⟨List.nodup_nil, List.nodup_nil, fun e he => by cases he⟩
  refine ⟨hok, ?_, ?_, ?_⟩
  · intro e he
    exact ⟨hok.2.2 e he, trySend_some _ e.2 ⟨1, 0⟩ (hok.2.2 e he) (by decide)⟩
  · intro order ho
    exact ⟨(tableOk_broadcast _ _ order hok ho).1, (tableOk_broadcast _ _ order hok ho).2.1⟩
  · intro order ho hne
    exact (tableOk_signal _ _ order hok ho).2 hne

theorem table_channels_empty_witness :
    ((CondState.start 2).run staleEntry).cond.channelWaits = [(2, 1), (1, 0)] ∧
    (Cond.Broadcast ((CondState.start 2).run staleEntry).heap
      ((CondState.start 2).run staleEntry).cond [1, 2]).2.channelWaits = [] :=
  ⟨by decide,
   ((table_channels_empty 2 staleEntry).2.2.1 [1, 2] (by decide)).1⟩

end GoSync
